import Mathlib

/-!
Verification development for the IAMLeastPrivilegeGenerator core:
shallow embedding of the event aggregator, condition reducer, scope
inference registry, policy generator, policy diff engine and local
policy simulator, together with theorems about the claims of the
specification.

Modelling conventions:
* Python strings are Lean `String`s; slicing, mapping and comparison are
  performed on the underlying character list (`String.data`), which
  matches Python's code-point semantics.
* Python `datetime` values are modelled as `Nat` timestamps (datetimes
  are totally ordered and always truthy).
* Python dicts used as condition maps (`dict[str, Any]`) are modelled as
  association lists with unique keys kept sorted by key: two Python
  dicts are `==` precisely when their canonical sorted item lists agree,
  so the canonical representation makes Lean equality coincide with
  Python dict equality.  Condition values (`Any`) are modelled by
  `CondVal`: a string, an integer, or a list of strings, the shapes that
  occur in IAM condition documents.
* A compiled regular expression (the aggregator's principal filter) is
  modelled as its match predicate `String → Bool`.
* `fnmatch`-style glob patterns are modelled with `*` (any run) and `?`
  (any single char) wildcards; the repository never uses `[...]`
  character classes.
-/

/-- Condition values: the JSON-ish value space used in IAM condition maps.
`s` is a string scalar, `i` an integer scalar, `ls` a list of strings. -/
inductive CondVal : Type where
  | s : String → CondVal
  | i : Int → CondVal
  | ls : List String → CondVal
deriving DecidableEq, Repr

/-- A condition map: association list from operator names to values,
canonically kept sorted by operator with unique keys (the canonical
representation of a Python dict). -/
abbrev CondMap := List (String × CondVal)

/-- Lookup of an operator in a condition map (Python `operator in merged` /
`merged[operator]`). -/
def dlookup : CondMap → String → Option CondVal
  | [], _ => none
  | (k', v') :: rest, k => if k = k' then some v' else dlookup rest k

/-- Character comparison by code point (Python's string order compares
code points). -/
def charCmp (c d : Char) : Ordering :=
  if c.toNat < d.toNat then Ordering.lt
  else if d.toNat < c.toNat then Ordering.gt
  else Ordering.eq

/-- Lexicographic comparison of lists given an element comparator. -/
def listCmp (cmp : α → α → Ordering) : List α → List α → Ordering
  | [], [] => Ordering.eq
  | [], _ :: _ => Ordering.lt
  | _ :: _, [] => Ordering.gt
  | x :: xs, y :: ys =>
    match cmp x y with
    | Ordering.eq => listCmp cmp xs ys
    | o => o

/-- Code-point lexicographic string comparison (Python `<`/`<=` on str). -/
def strCmp (a b : String) : Ordering :=
  listCmp charCmp a.data b.data

/-- Lexicographic pair comparison (Python tuple comparison). -/
def prodCmp (f : α → α → Ordering) (g : β → β → Ordering) (p q : α × β) :
    Ordering :=
  match f p.1 q.1 with
  | Ordering.eq => g p.2 q.2
  | o => o

/-- The non-strict order induced by a comparator. -/
def leOfCmp (cmp : α → α → Ordering) (a b : α) : Prop :=
  cmp a b ≠ Ordering.gt

instance (cmp : α → α → Ordering) : DecidableRel (leOfCmp cmp) := fun a b =>
  inferInstanceAs (Decidable (cmp a b ≠ Ordering.gt))

/-- String order relation used for `sorted` on strings. -/
def strLE (a b : String) : Prop :=
  leOfCmp strCmp a b

instance : DecidableRel strLE := fun a b =>
  inferInstanceAs (Decidable (leOfCmp strCmp a b))

/-- Insert or overwrite a key in a condition map, keeping it sorted by key
(Python `merged[operator] = value` on the canonical dict representation). -/
def dinsert : CondMap → String → CondVal → CondMap
  | [], k, v => [(k, v)]
  | (k', v') :: rest, k, v =>
    match strCmp k k' with
    | Ordering.lt => (k, v) :: (k', v') :: rest
    | Ordering.eq => (k, v) :: rest
    | Ordering.gt => (k', v') :: dinsert rest k v

/-- Sort a list of strings ascending (Python `sorted`). -/
def sortStr (l : List String) : List String :=
  List.insertionSort strLE l

/-- Sorted deduplication, Python `sorted({*l})` / `sorted(set(l))`. -/
def sortedSet (l : List String) : List String :=
  sortStr l.dedup

/-- `ConditionReducer._combine_values` from
`src/core/aggregator/conditions.py`: two lists combine as the sorted union
of their unique elements; two equal strings keep the string; two distinct
strings widen to the sorted pair; any other combination keeps the later
value. -/
def combine_values (existing new : CondVal) : CondVal :=
  match existing, new with
  | CondVal.ls a, CondVal.ls b => CondVal.ls (sortedSet (a ++ b))
  | CondVal.s a, CondVal.s b =>
    if a = b then CondVal.s a else CondVal.ls (sortStr [a, b])
  | _, n => n

/-- Handle one `(operator, value)` item of a condition dict: first
occurrence is stored as-is, a collision is combined. -/
def merge_entry (acc : CondMap) (kv : String × CondVal) : CondMap :=
  match dlookup acc kv.1 with
  | none => dinsert acc kv.1 kv.2
  | some ex => dinsert acc kv.1 (combine_values ex kv.2)

/-- Fold one per-event condition dict into the accumulated merged map
(inner loop of `ConditionReducer.merge`). -/
def merge_one (merged : CondMap) (cond : CondMap) : CondMap :=
  cond.foldl merge_entry merged

/-- `ConditionReducer.merge` from `src/core/aggregator/conditions.py`:
left-to-right fold of the per-event condition dicts. -/
def ConditionReducer.merge (conditions : List CondMap) : CondMap :=
  conditions.foldl merge_one []

/-- Normalized CloudTrail event (`EventModel` in `src/core/models.py`),
restricted to the fields the core pipeline reads. -/
structure EventModel where
  event_time : Nat
  principal_arn : String
  account_id : String
  region : String
  action : String
  request_parameters : List (String × String)
  resource_arns : List String
  aws_service : String
deriving DecidableEq, Repr

/-- Append each element of `xs` to `acc` unless already present
(first-seen-order set union, the resource loop of
`ActionRecord.register`). -/
def insertUniqueAll (acc : List String) (xs : List String) : List String :=
  xs.foldl (fun a x => if x ∈ a then a else a ++ [x]) acc

/-- Aggregated usage record (`ActionRecord` in `src/core/models.py`). -/
structure ActionRecord where
  principal_arn : String
  service : String
  action : String
  count : Nat := 0
  resources : List String := []
  conditions : List CondMap := []
  last_seen : Option Nat := none
deriving DecidableEq, Repr

/-- `ActionRecord.register` from `src/core/models.py` lines 41-47:
increments the count, raises `last_seen` to the maximum observed
timestamp, and unions the event's resource ARNs in first-seen order.
It does not touch the `conditions` list. -/
def ActionRecord.register (r : ActionRecord) (e : EventModel) : ActionRecord :=
  { r with
    count := r.count + 1
    last_seen :=
      some (match r.last_seen with
            | none => e.event_time
            | some t => if t < e.event_time then e.event_time else t)
    resources := insertUniqueAll r.resources e.resource_arns }

/-- Glob matching on character lists: `*` matches any run, `?` any single
character, everything else literally (the fragment of `fnmatch` the
repository uses). -/
def globMatch : List Char → List Char → Bool
  | [], [] => true
  | '*' :: ps, [] => globMatch ps []
  | '*' :: ps, c :: cs => globMatch ps (c :: cs) || globMatch ('*' :: ps) cs
  | '?' :: ps, _ :: cs => globMatch ps cs
  | p :: ps, c :: cs => p = c && globMatch ps cs
  | _ :: _, [] => false
  | [], _ :: _ => false
termination_by ps cs => (ps.length, cs.length)

/-- Python `fnmatch.fnmatch(name, pattern)`. -/
def fnmatch (name pattern : String) : Bool :=
  globMatch pattern.data name.data

/-- Take the first `n` characters of a string (Python slice `s[:n]`). -/
def strTake (s : String) (n : Nat) : String :=
  String.mk (s.data.take n)

/-- Drop the final character of a string (Python slice `s[:-1]`). -/
def strDropLast (s : String) : String :=
  String.mk s.data.dropLast

/-- Map a function over a string's characters. -/
def strMap (f : Char → Char) (s : String) : String :=
  String.mk (s.data.map f)

/-- True iff `pat` ends with a `*` character (Python `pat.endswith("*")`). -/
def endsWithStar (pat : String) : Bool :=
  pat.data.getLast? = some '*'

/-- True iff `pre` is a prefix of `s` (Python `s.startswith(pre)`). -/
def strStarts (s pre : String) : Bool :=
  List.isPrefixOf pre.data s.data

/-- True iff `c` occurs in `s` (Python `c in s` for a single char). -/
def strHasChar (s : String) (c : Char) : Bool :=
  s.data.contains c

/-! ### Ordering of aggregation and grouping keys

Python sorts records by the tuple `(principal, service, action)` and
statement groups by `(service, resource-tuple, condition-fingerprint)`;
tuple comparison is lexicographic, string comparison is code-point
lexicographic.  We realise these orders by lexicographic comparators. -/

/-- Aggregation key `(principal_arn, service, action)`. -/
abbrev AggKey := String × String × String

/-- Lexicographic comparison of aggregation keys. -/
def aggCmp (a b : AggKey) : Ordering :=
  prodCmp strCmp (prodCmp strCmp strCmp) a b

/-- Key of an aggregated record. -/
def recKey (r : ActionRecord) : AggKey :=
  (r.principal_arn, r.service, r.action)

/-- Record comparison used by the aggregator's final sort
(Python `records.sort(key=lambda rec: (rec.principal_arn, rec.service, rec.action))`). -/
def recLE (a b : ActionRecord) : Prop :=
  leOfCmp aggCmp (recKey a) (recKey b)

instance : DecidableRel recLE := fun a b =>
  inferInstanceAs (Decidable (leOfCmp aggCmp (recKey a) (recKey b)))

/-- Comparison of condition values: strings, then integers, then string
lists (any total extension of Python's comparable cases works here, since
group keys only ever compare equal-typed values produced by the reducer). -/
def intCmp (m n : Int) : Ordering :=
  if m < n then Ordering.lt else if n < m then Ordering.gt else Ordering.eq

/-- Comparator on condition values. -/
def cvCmp : CondVal → CondVal → Ordering
  | CondVal.s a, CondVal.s b => strCmp a b
  | CondVal.s _, _ => Ordering.lt
  | CondVal.i _, CondVal.s _ => Ordering.gt
  | CondVal.i m, CondVal.i n => intCmp m n
  | CondVal.i _, CondVal.ls _ => Ordering.lt
  | CondVal.ls _, CondVal.s _ => Ordering.gt
  | CondVal.ls _, CondVal.i _ => Ordering.gt
  | CondVal.ls a, CondVal.ls b => listCmp strCmp a b

/-- Comparator on condition maps (lexicographic on the sorted items, the
order their canonical serialization would compare in). -/
def cmCmp (a b : CondMap) : Ordering :=
  listCmp (prodCmp strCmp cvCmp) a b

/-- Statement-group key `(service, resource scope tuple, merged condition
map)`; the condition map stands for its own canonical fingerprint
(`json.dumps(..., sort_keys=True)` is injective on dicts, so grouping by
the fingerprint string and grouping by the canonical map coincide). -/
abbrev GKey := String × List String × CondMap

/-- Comparator on statement-group keys. -/
def gkeyCmp (a b : GKey) : Ordering :=
  prodCmp strCmp (prodCmp (listCmp strCmp) cmCmp) a b

/-- Group-key order used by `sorted(grouped.items())` (group keys are
unique, so sorting items by key determines the item order). -/
def groupLE (p q : GKey × List String) : Prop :=
  leOfCmp gkeyCmp p.1 q.1

instance : DecidableRel groupLE := fun p q =>
  inferInstanceAs (Decidable (leOfCmp gkeyCmp p.1 q.1))

/-! ### UsageAggregator (`src/core/aggregator/actions.py`) -/

/-- Configuration state of an `ActionAggregator`; the optional DynamoDB
persistence sink is an external collaborator whose best-effort upsert
does not affect the returned records, so it is not modelled.  The
compiled principal-filter regex is modelled by its match predicate. -/
structure ActionAggregator where
  principal_pattern : Option (String → Bool)
  exclude_patterns : List String
  allow_patterns : List String
  allow_principals : List String
  allow_resource_patterns : List String
  min_count : Int

/-- `ActionAggregator.__init__`: stores the filter configuration and
clamps `min_count` via `max(min_count, 1)`. -/
def mkActionAggregator (principal_pattern : Option (String → Bool))
    (exclude_patterns allow_patterns allow_principals allow_resource_patterns : List String)
    (min_count : Int) : ActionAggregator :=
  { principal_pattern := principal_pattern
    exclude_patterns := exclude_patterns
    allow_patterns := allow_patterns
    allow_principals := allow_principals
    allow_resource_patterns := allow_resource_patterns
    min_count := max min_count 1 }

/-- `ActionAggregator._include_principal`. -/
def include_principal (agg : ActionAggregator) (principal : String) : Bool :=
  match agg.principal_pattern with
  | none => true
  | some p => p principal

/-- `ActionAggregator._normalize_action`: prefix the action with the
service when it lacks a `service:` prefix. -/
def normalize_action (e : EventModel) : String :=
  if strHasChar e.action ':' then e.action
  else e.aws_service ++ ":" ++ e.action

/-- `ActionAggregator._is_excluded`. -/
def is_excluded (agg : ActionAggregator) (action : String) : Bool :=
  agg.exclude_patterns.any (fun pat => fnmatch action pat)

/-- `ActionAggregator._is_allowlisted`. -/
def is_allowlisted (agg : ActionAggregator) (action principal : String)
    (resources : List String) : Bool :=
  agg.allow_patterns.any (fun pat => fnmatch action pat) ||
  agg.allow_principals.any (fun pat => fnmatch principal pat) ||
  agg.allow_resource_patterns.any
    (fun pat => resources.any (fun res => fnmatch res pat))

/-- Key under which an event is folded. -/
def eventKey (e : EventModel) : AggKey :=
  (e.principal_arn, e.aws_service, normalize_action e)

/-- An event survives the principal filter and the exclude patterns. -/
def qualifies (agg : ActionAggregator) (e : EventModel) : Bool :=
  include_principal agg e.principal_arn &&
    !(is_excluded agg (normalize_action e))

/-- Fresh record for a key, as built inline in `ActionAggregator.aggregate`. -/
def newRecord (k : AggKey) : ActionRecord :=
  { principal_arn := k.1, service := k.2.1, action := k.2.2 }

section AssocFold

variable {α β κ : Type} [DecidableEq κ]
variable (keyA : α → κ) (keyB : β → κ) (mk : κ → α) (upd : α → β → α)

/-- One step of a keyed fold into an insertion-ordered association
structure (a Python dict whose values accumulate): update the entry with
the item's key, creating it at the end if absent. -/
def assocStep (l : List α) (b : β) : List α :=
  if l.any (fun a => keyA a = keyB b) then
    l.map (fun a => if keyA a = keyB b then upd a b else a)
  else l ++ [upd (mk (keyB b)) b]

/-- Keyed fold of a list of items into an accumulator list. -/
def assocFold (init : List α) (bs : List β) : List α :=
  bs.foldl (assocStep keyA keyB mk upd) init

end AssocFold

/-- One event-processing step of `ActionAggregator.aggregate`'s fold. -/
def stepStates (agg : ActionAggregator) (states : List ActionRecord)
    (e : EventModel) : List ActionRecord :=
  if qualifies agg e then
    assocStep recKey eventKey newRecord ActionRecord.register states e
  else states

/-- The dict-building loop of `ActionAggregator.aggregate`, with the
dict's values in insertion order. -/
def foldStates (agg : ActionAggregator) (events : List EventModel) :
    List ActionRecord :=
  events.foldl (stepStates agg) []

/-- The survival test applied after folding: count at least `min_count`
and not allowlisted. -/
def keeps (agg : ActionAggregator) (r : ActionRecord) : Bool :=
  (decide (agg.min_count ≤ (r.count : Int))) &&
    !(is_allowlisted agg r.action r.principal_arn r.resources)

/-- The aggregator's deterministic final sort. -/
def sortRecords (l : List ActionRecord) : List ActionRecord :=
  List.insertionSort recLE l

/-- `ActionAggregator.aggregate`: fold, filter, sort. -/
def aggregate (agg : ActionAggregator) (events : List EventModel) :
    List ActionRecord :=
  sortRecords ((foldStates agg events).filter (keeps agg))

/-! ### ScopeInferenceRegistry (`src/core/inference/arn_rules.py`) and
capability table (`src/core/inference/resource_level.py`) -/

/-- Per-service extractor signature. -/
abbrev Extractor := EventModel → List String

/-- `ArnRuleRegistry`: extractor functions keyed by AWS service. -/
structure ArnRuleRegistry where
  service_rules : List (String × List Extractor)

/-- `ArnRuleRegistry.register`: `setdefault(service, []).append(extractor)`. -/
def registerRule (reg : ArnRuleRegistry) (service : String) (f : Extractor) :
    ArnRuleRegistry :=
  if (reg.service_rules.lookup service).isSome then
    { service_rules :=
        reg.service_rules.map
          (fun p => if p.1 = service then (p.1, p.2 ++ [f]) else p) }
  else { service_rules := reg.service_rules ++ [(service, [f])] }

/-- `ArnRuleRegistry.infer_from_record` (lines 49-53): returns the
record's own resource set when present and the empty set otherwise; the
registered extractors are never consulted.  The returned Python set is
modelled as a deduplicated list. -/
def infer_from_record (_reg : ArnRuleRegistry) (record : ActionRecord) :
    List String :=
  if record.resources.isEmpty then [] else record.resources.dedup

/-- `ResourceLevelIndex`: static action capability table. -/
structure ResourceLevelIndex where
  supports_resource_level : List (String × Bool)

/-- `ResourceLevelIndex.allows_scoping`: lookup with default `False`. -/
def allows_scoping (idx : ResourceLevelIndex) (action : String) : Bool :=
  (idx.supports_resource_level.lookup action).getD false

/-- The curated `_DEFAULT_SUPPORT` table of
`src/core/inference/resource_level.py`. -/
def defaultSupport : List (String × Bool) :=
  [("s3:GetObject", true), ("s3:PutObject", true), ("s3:DeleteObject", true),
   ("s3:ListBucket", true), ("s3:ListAllMyBuckets", false),
   ("dynamodb:PutItem", true), ("dynamodb:GetItem", true),
   ("dynamodb:DeleteItem", true), ("dynamodb:Query", true),
   ("dynamodb:Scan", true), ("dynamodb:ListTables", false),
   ("lambda:InvokeFunction", true), ("lambda:ListFunctions", false),
   ("sqs:SendMessage", true), ("sqs:ReceiveMessage", true),
   ("sqs:DeleteMessage", true), ("sqs:ListQueues", false),
   ("sns:Publish", true), ("sns:ListTopics", false),
   ("kms:Decrypt", true), ("kms:Encrypt", true), ("kms:ListKeys", false),
   ("secretsmanager:GetSecretValue", true),
   ("secretsmanager:ListSecrets", false),
   ("ssm:GetParameter", true), ("ssm:PutParameter", true),
   ("ssm:DescribeParameters", false),
   ("ec2:StartInstances", true), ("ec2:StopInstances", true),
   ("ec2:DescribeInstances", false)]

/-- Default capability table. -/
def defaultResourceLevelIndex : ResourceLevelIndex :=
  { supports_resource_level := defaultSupport }

/-! ### PolicySynthesizer (`src/core/policy/generator.py`) -/

/-- IAM policy statement (`PolicyStatement` in `src/core/models.py`). -/
structure PolicyStatement where
  sid : Option String := none
  effect : String := "Allow"
  actions : List String := []
  resources : List String := []
  conditions : CondMap := []
deriving DecidableEq, Repr

/-- IAM policy document (`PolicyDoc` in `src/core/models.py`). -/
structure PolicyDoc where
  version : String := "2012-10-17"
  statements : List PolicyStatement := []
deriving DecidableEq, Repr

/-- Document wrapper used by the generator. -/
def mkDoc (sts : List PolicyStatement) : PolicyDoc :=
  { statements := sts }

/-- Configuration state of a `PolicyGenerator` (its constructor rejects a
mode outside {actions, resources}). -/
structure PolicyGenerator where
  arn_rules : ArnRuleRegistry
  resource_levels : ResourceLevelIndex
  mode : String := "actions"
  include_logs_baseline : Bool := false
  max_statements : Option Int := none

/-- `PolicyGenerator._determine_resources` (lines 89-101): the sorted
unique observed resources when present; otherwise, in resources mode on a
scoping-capable action, the sorted inferred set when non-empty; otherwise
the wildcard singleton. -/
def determine_resources (g : PolicyGenerator) (record : ActionRecord) :
    List String :=
  if !record.resources.isEmpty then sortedSet record.resources
  else if g.mode == "resources" && allows_scoping g.resource_levels record.action then
    (if !(infer_from_record g.arn_rules record).isEmpty then
       sortedSet (infer_from_record g.arn_rules record)
     else ["*"])
  else ["*"]

/-- Decimal digit character. -/
def digitChar (n : Nat) : Char :=
  Char.ofNat (48 + n)

/-- Python `f"{c:03d}"` for a non-negative counter. -/
def pad3 (c : Nat) : String :=
  if c < 1000 then
    String.mk [digitChar (c / 100), digitChar (c / 10 % 10), digitChar (c % 10)]
  else Nat.repr c

/-- `PolicyGenerator._build_sid` (lines 127-131): service name with `:`
and `-` replaced by `_`, truncated to 40 chars, `"svc"` when that is
empty, suffixed with `_allow_` and the zero-padded counter, the whole
truncated to 128 chars. -/
def build_sid (service : String) (counter : Nat) : String :=
  let pfx := strTake (strMap (fun ch => if ch = ':' ∨ ch = '-' then '_' else ch) service) 40
  let pfx2 := if pfx = "" then "svc" else pfx
  strTake (pfx2 ++ "_allow_" ++ pad3 counter) 128

/-- Composite group key of a record inside `_compose_statements`. -/
def gkey (g : PolicyGenerator) (r : ActionRecord) : GKey :=
  (r.service, determine_resources g r, ConditionReducer.merge r.conditions)

/-- Add a record's action to its group's action set (Python
`grouped[key].add(record.action)` on an insertion-ordered set). -/
def addAction (p : GKey × List String) (r : ActionRecord) : GKey × List String :=
  (p.1, if r.action ∈ p.2 then p.2 else p.2 ++ [r.action])

/-- The grouping loop of `_compose_statements`, values in dict insertion
order. -/
def groupRecords (g : PolicyGenerator) (records : List ActionRecord) :
    List (GKey × List String) :=
  assocFold Prod.fst (gkey g) (fun k => (k, [])) addAction [] records

/-- `sorted(grouped.items())`: group keys are unique, so sorting the
items sorts by key. -/
def sortGroups (l : List (GKey × List String)) : List (GKey × List String) :=
  List.insertionSort groupLE l

/-- Bump the per-service sid counter (`counters[service] += 1` on a
`defaultdict(int)`), returning the new counter and table. -/
def bumpCounter (counters : List (String × Nat)) (service : String) :
    Nat × List (String × Nat) :=
  let c := ((counters.lookup service).getD 0) + 1
  (c,
   if (counters.lookup service).isSome then
     counters.map (fun p => if p.1 = service then (p.1, c) else p)
   else counters ++ [(service, c)])

/-- Statement built for one group inside `_compose_statements`. -/
def mkStatement (k : GKey) (acts : List String) (c : Nat) : PolicyStatement :=
  { sid := some (build_sid k.1 c)
    effect := "Allow"
    actions := sortStr acts
    resources := k.2.1
    conditions := k.2.2 }

/-- The statement-emission loop of `_compose_statements`: walk the sorted
groups, bump the service counter, emit the statement. -/
def assignSids (groups : List (GKey × List String)) : List PolicyStatement :=
  (groups.foldl
    (fun acc p =>
      let bc := bumpCounter acc.1 p.1.1
      (bc.2, acc.2 ++ [mkStatement p.1 p.2 bc.1]))
    (([] : List (String × Nat)), ([] : List PolicyStatement))).2

/-- `PolicyGenerator._compose_statements` (lines 57-87). -/
def compose_statements (g : PolicyGenerator) (records : List ActionRecord) :
    List PolicyStatement :=
  assignSids (sortGroups (groupRecords g records))

/-- `PolicyGenerator._logs_baseline_statement`. -/
def logs_baseline_statement : PolicyStatement :=
  { sid := some (build_sid "logs" 1)
    effect := "Allow"
    actions := ["logs:CreateLogGroup", "logs:CreateLogStream", "logs:PutLogEvents"]
    resources := ["arn:aws:logs:*:*:log-group:/aws/lambda/*"]
    conditions := [] }

/-- Consecutive chunks of at most `m` elements (`statements[i : i + m]`
for `i in range(0, len, m)`), for a positive `m`; the first argument is
recursion fuel. -/
def chunksOfAux {α : Type} (m : Nat) : Nat → List α → List (List α)
  | _, [] => []
  | 0, _ :: _ => []
  | fuel + 1, x :: xs => (x :: xs).take m :: chunksOfAux m fuel ((x :: xs).drop m)

/-- Chunking with enough fuel for any positive `m`. -/
def chunksOf {α : Type} (m : Nat) (l : List α) : List (List α) :=
  chunksOfAux m l.length l

/-- `PolicyGenerator._chunk_statements` (lines 118-125): a falsy
`max_statements` (None or 0) or a short list means no split; a negative
limit makes Python's `range(0, len, m)` empty, yielding no chunks at
all; otherwise consecutive chunks of at most `max_statements`. -/
def chunk_statements (g : PolicyGenerator) (sts : List PolicyStatement) :
    List PolicyDoc :=
  match g.max_statements with
  | none => [mkDoc sts]
  | some m =>
    if m = 0 ∨ (sts.length : Int) ≤ m then [mkDoc sts]
    else if m < 0 then []
    else (chunksOf m.toNat sts).map mkDoc

/-- The statement list assembled by `PolicyGenerator.build` before
chunking: composed statements plus the optional logs baseline. -/
def buildStatements (g : PolicyGenerator) (records : List ActionRecord) :
    List PolicyStatement :=
  let sts := compose_statements g records
  if g.include_logs_baseline && records.any (fun r => r.service == "lambda")
  then sts ++ [logs_baseline_statement]
  else sts

/-- `PolicyGenerator.build` (lines 40-54): empty input yields an empty
document; otherwise compose, optionally append the logs baseline, chunk;
the first chunk is the primary document and the rest are the overflow
documents.  `none` models the `IndexError` raised when chunking yields no
documents (negative `max_statements`). -/
def build (g : PolicyGenerator) (records : List ActionRecord) :
    Option (PolicyDoc × List PolicyDoc) :=
  if records.isEmpty then some (mkDoc [], [])
  else
    match chunk_statements g (buildStatements g records) with
    | [] => none
    | d :: rest => some (d, rest)

/-! ### PolicyDiffEngine (`src/core/policy/diff.py`) -/

/-- `PolicyDiff._count_actions`. -/
def count_actions (p : PolicyDoc) : Nat :=
  (p.statements.map (fun st => st.actions.length)).sum

/-- `PolicyDiff._count_resources`. -/
def count_resources (p : PolicyDoc) : Nat :=
  (p.statements.map (fun st => st.resources.length)).sum

/-- `PolicyDiff.resource_reduction_ratio` (lines 24-30), with exact
rational arithmetic in place of Python floats. -/
def resource_reduction_ratioQ (before after : PolicyDoc) : ℚ :=
  let br := count_resources before
  let ar := count_resources after
  if br = 0 then 0 else max (((br : ℚ) - ar) / br) 0

/-- `PolicyDiff._denied_reduction` (lines 59-63): the caller supplies the
before/after access-denied probe counts. -/
def denied_reductionQ (before after : Nat) : ℚ :=
  if before ≤ 0 then 0 else max (((before : ℚ) - after) / before) 0

/-! ### PolicySimulator (`src/core/policy/simulator.py`) -/

/-- `PolicySimulator._action_matches` (lines 108-115). -/
def action_matches (action : String) (patterns : List String) : Bool :=
  patterns.any (fun pat =>
    pat == action || (endsWithStar pat && strStarts action (strDropLast pat)))

/-- `PolicySimulator._resource_matches` (lines 117-126). -/
def resource_matches (resource : String) (patterns : List String) : Bool :=
  if patterns.isEmpty then resource == "*"
  else patterns.any (fun pat =>
    pat == "*" || pat == resource ||
      (endsWithStar pat && strStarts resource (strDropLast pat)))

/-- One statement matches a probe inside `_local_simulate`. -/
def statement_allows (st : PolicyStatement) (action resource : String) : Bool :=
  st.effect == "Allow" && action_matches action st.actions &&
    resource_matches resource st.resources

/-- The per-probe decision of `PolicySimulator._local_simulate` (lines
92-106): default Deny, first matching Allow statement wins. -/
def local_decision (policy : PolicyDoc) (action resource : String) : String :=
  if policy.statements.any (fun st => statement_allows st action resource)
  then "Allow" else "Deny"

/-! ## Comparator lawfulness -/

/-- A comparator is lawful when it behaves like a linear order's
three-way comparison: `eq` characterises equality, `gt` is the swap of
`lt`, and `lt` is transitive. -/
def IsLawfulCmp {α : Type} (c : α → α → Ordering) : Prop :=
  (∀ a b, c a b = Ordering.eq ↔ a = b) ∧
  (∀ a b, c a b = Ordering.gt ↔ c b a = Ordering.lt) ∧
  (∀ a b d, c a b = Ordering.lt → c b d = Ordering.lt → c a d = Ordering.lt)

theorem charCmp_lawful : IsLawfulCmp charCmp := by
  refine ⟨fun a b => ?_, fun a b => ?_, fun a b d h1 h2 => ?_⟩
  · unfold charCmp
    split_ifs with h1 h2 <;> simp <;> try omega
    · intro hab; subst hab; omega
    · intro hab; subst hab; omega
    · have h3 : a.toNat = b.toNat := by omega
      exact Char.ext (UInt32.ext h3)
  · unfold charCmp
    split_ifs <;> simp <;> omega
  · unfold charCmp at h1 h2 ⊢
    split_ifs at h1 h2 ⊢ <;> simp_all <;> omega

theorem intCmp_lawful : IsLawfulCmp intCmp := by
  refine ⟨fun a b => ?_, fun a b => ?_, fun a b d h1 h2 => ?_⟩
  · unfold intCmp; split_ifs <;> simp <;> omega
  · unfold intCmp; split_ifs <;> simp <;> omega
  · unfold intCmp at h1 h2 ⊢; split_ifs at h1 h2 ⊢ <;> simp_all <;> omega

theorem listCmp_lawful {α : Type} {c : α → α → Ordering}
    (h : IsLawfulCmp c) : IsLawfulCmp (listCmp c) := by
  obtain ⟨heq, hswap, htrans⟩ := h
  refine ⟨fun a => ?_, fun a => ?_, fun a => ?_⟩
  · induction a with
    | nil => intro b; cases b <;> simp [listCmp]
    | cons x xs ih =>
      intro b
      cases b with
      | nil => simp [listCmp]
      | cons y ys =>
        simp only [listCmp]
        cases hxy : c x y with
        | eq =>
          have hx : x = y := (heq x y).mp hxy
          subst hx
          simp [ih]
        | lt =>
          simp only []
          constructor
          · intro hc; cases hc
          · intro hc
            injection hc with hc1 hc2
            subst hc1
            rw [(heq x x).mpr rfl] at hxy
            cases hxy
        | gt =>
          simp only []
          constructor
          · intro hc; cases hc
          · intro hc
            injection hc with hc1 hc2
            subst hc1
            rw [(heq x x).mpr rfl] at hxy
            cases hxy
  · induction a with
    | nil => intro b; cases b <;> simp [listCmp]
    | cons x xs ih =>
      intro b
      cases b with
      | nil => simp [listCmp]
      | cons y ys =>
        simp only [listCmp]
        cases hxy : c x y with
        | eq =>
          have hx : x = y := (heq x y).mp hxy
          subst hx
          rw [(heq x x).mpr rfl]
          exact ih ys
        | lt =>
          have hyx : c y x = Ordering.gt := (hswap y x).mpr hxy
          rw [hyx]
          simp
        | gt =>
          have hyx : c y x = Ordering.lt := (hswap x y).mp hxy
          rw [hyx]
          simp
  · induction a with
    | nil =>
      intro b d h1 h2
      cases b with
      | nil => cases h1
      | cons y ys =>
        cases d with
        | nil => simp [listCmp] at h2
        | cons z zs => simp [listCmp]
    | cons x xs ih =>
      intro b d h1 h2
      cases b with
      | nil => simp [listCmp] at h1
      | cons y ys =>
        cases d with
        | nil => simp [listCmp] at h2
        | cons z zs =>
          simp only [listCmp] at h1 h2 ⊢
          cases hxy : c x y with
          | eq =>
            have hx : x = y := (heq x y).mp hxy
            subst hx
            rw [hxy] at h1
            replace h1 : listCmp c xs ys = Ordering.lt := h1
            cases hyz : c x z with
            | eq =>
              have hy : x = z := (heq x z).mp hyz
              subst hy
              rw [hyz] at h2
              replace h2 : listCmp c ys zs = Ordering.lt := h2
              exact ih ys zs h1 h2
            | lt => rfl
            | gt => rw [hyz] at h2; simp at h2
          | lt =>
            rw [hxy] at h1
            cases hyz : c y z with
            | eq =>
              have hy : y = z := (heq y z).mp hyz
              subst hy
              rw [hxy]
            | lt =>
              rw [htrans x y z hxy hyz]
            | gt => rw [hyz] at h2; simp at h2
          | gt => rw [hxy] at h1; simp at h1

theorem prodCmp_lawful {α β : Type} {f : α → α → Ordering}
    {g : β → β → Ordering} (hf : IsLawfulCmp f) (hg : IsLawfulCmp g) :
    IsLawfulCmp (prodCmp f g) := by
  obtain ⟨feq, fswap, ftrans⟩ := hf
  obtain ⟨geq, gswap, gtrans⟩ := hg
  refine ⟨fun a b => ?_, fun a b => ?_, fun a b d h1 h2 => ?_⟩
  · simp only [prodCmp]
    cases hxy : f a.1 b.1 with
    | eq =>
      have hx : a.1 = b.1 := (feq _ _).mp hxy
      rw [geq]
      constructor
      · intro hy; exact Prod.ext hx hy
      · intro hy; rw [hy]
    | lt =>
      simp only []
      constructor
      · intro hc; cases hc
      · intro hc
        rw [hc, (feq _ _).mpr rfl] at hxy
        cases hxy
    | gt =>
      simp only []
      constructor
      · intro hc; cases hc
      · intro hc
        rw [hc, (feq _ _).mpr rfl] at hxy
        cases hxy
  · simp only [prodCmp]
    cases hxy : f a.1 b.1 with
    | eq =>
      have hx : a.1 = b.1 := (feq _ _).mp hxy
      rw [hx, (feq _ _).mpr rfl]
      exact gswap a.2 b.2
    | lt =>
      rw [(fswap b.1 a.1).mpr hxy]
      simp
    | gt =>
      rw [(fswap a.1 b.1).mp hxy]
      simp
  · simp only [prodCmp] at h1 h2 ⊢
    cases hxy : f a.1 b.1 with
    | eq =>
      have hx : a.1 = b.1 := (feq _ _).mp hxy
      rw [hxy] at h1
      cases hyz : f b.1 d.1 with
      | eq =>
        have hy : b.1 = d.1 := (feq _ _).mp hyz
        rw [hyz] at h2
        rw [hx, hy, (feq _ _).mpr rfl]
        exact gtrans _ _ _ h1 h2
      | lt => rw [hyz] at h2; rw [hx, hyz]
      | gt => rw [hyz] at h2; cases h2
    | lt =>
      cases hyz : f b.1 d.1 with
      | eq =>
        have hy : b.1 = d.1 := (feq _ _).mp hyz
        rw [← hy, hxy]
      | lt => rw [ftrans _ _ _ hxy hyz]
      | gt => rw [hyz] at h2; cases h2
    | gt => rw [hxy] at h1; cases h1

theorem strCmp_lawful : IsLawfulCmp strCmp := by
  have hl := listCmp_lawful charCmp_lawful
  refine ⟨fun a b => ?_, fun a b => hl.2.1 a.data b.data,
    fun a b d h1 h2 => hl.2.2 a.data b.data d.data h1 h2⟩
  rw [strCmp, hl.1]
  constructor
  · intro h; cases a; cases b; exact congrArg String.mk h
  · intro h; rw [h]

theorem cvCmp_lawful : IsLawfulCmp cvCmp := by
  have hstr := strCmp_lawful
  have hint := intCmp_lawful
  have hls := listCmp_lawful strCmp_lawful
  refine ⟨fun a b => ?_, fun a b => ?_, fun a b d h1 h2 => ?_⟩
  · cases a <;> cases b <;> simp [cvCmp, hstr.1, hint.1, hls.1]
  · cases a <;> cases b <;> simp [cvCmp, hstr.2.1, hint.2.1, hls.2.1]
  · cases a <;> cases b <;> cases d <;>
      simp_all [cvCmp] <;>
      first
        | exact hstr.2.2 _ _ _ h1 h2
        | exact hint.2.2 _ _ _ h1 h2
        | exact hls.2.2 _ _ _ h1 h2

theorem cmCmp_lawful : IsLawfulCmp cmCmp :=
  listCmp_lawful (prodCmp_lawful strCmp_lawful cvCmp_lawful)

theorem aggCmp_lawful : IsLawfulCmp aggCmp :=
  prodCmp_lawful strCmp_lawful (prodCmp_lawful strCmp_lawful strCmp_lawful)

theorem gkeyCmp_lawful : IsLawfulCmp gkeyCmp :=
  prodCmp_lawful strCmp_lawful
    (prodCmp_lawful (listCmp_lawful strCmp_lawful) cmCmp_lawful)

theorem cmp_refl {α : Type} {c : α → α → Ordering} (h : IsLawfulCmp c)
    (a : α) : c a a = Ordering.eq :=
  (h.1 a a).mpr rfl

theorem leOfCmp_total {α : Type} {c : α → α → Ordering} (h : IsLawfulCmp c)
    (a b : α) : leOfCmp c a b ∨ leOfCmp c b a := by
  unfold leOfCmp
  cases hab : c a b with
  | lt => left; simp
  | eq => left; simp
  | gt =>
    right
    rw [(h.2.1 a b).mp hab]
    simp

theorem leOfCmp_trans {α : Type} {c : α → α → Ordering} (h : IsLawfulCmp c)
    {a b d : α} (h1 : leOfCmp c a b) (h2 : leOfCmp c b d) : leOfCmp c a d := by
  unfold leOfCmp at h1 h2 ⊢
  cases hab : c a b with
  | gt => exact absurd hab h1
  | eq =>
    have := (h.1 a b).mp hab
    subst this
    exact h2
  | lt =>
    cases hbd : c b d with
    | gt => exact absurd hbd h2
    | eq =>
      have := (h.1 b d).mp hbd
      subst this
      simp [hab]
    | lt =>
      rw [h.2.2 a b d hab hbd]
      simp

theorem leOfCmp_antisymm {α : Type} {c : α → α → Ordering}
    (h : IsLawfulCmp c) {a b : α} (h1 : leOfCmp c a b) (h2 : leOfCmp c b a) :
    a = b := by
  unfold leOfCmp at h1 h2
  cases hab : c a b with
  | eq => exact (h.1 a b).mp hab
  | gt => exact absurd hab h1
  | lt => exact absurd ((h.2.1 b a).mpr hab) h2

theorem lt_of_leOfCmp_of_ne {α : Type} {c : α → α → Ordering}
    (h : IsLawfulCmp c) {a b : α} (h1 : leOfCmp c a b) (h2 : a ≠ b) :
    c a b = Ordering.lt := by
  unfold leOfCmp at h1
  cases hab : c a b with
  | lt => rfl
  | eq => exact absurd ((h.1 a b).mp hab) h2
  | gt => exact absurd hab h1

instance : IsTotal String strLE := ⟨leOfCmp_total strCmp_lawful⟩

instance : IsTrans String strLE := ⟨fun _ _ _ => leOfCmp_trans strCmp_lawful⟩

instance : IsAntisymm String strLE := ⟨fun _ _ => leOfCmp_antisymm strCmp_lawful⟩

instance : IsTotal ActionRecord recLE :=
  ⟨fun a b => leOfCmp_total aggCmp_lawful (recKey a) (recKey b)⟩

instance : IsTrans ActionRecord recLE :=
  ⟨fun _ _ _ => leOfCmp_trans aggCmp_lawful⟩

instance : IsTotal (GKey × List String) groupLE :=
  ⟨fun a b => leOfCmp_total gkeyCmp_lawful a.1 b.1⟩

instance : IsTrans (GKey × List String) groupLE :=
  ⟨fun _ _ _ => leOfCmp_trans gkeyCmp_lawful⟩

/-! ## Keyed-fold machinery

Both the aggregator (folding events into records) and the generator
(folding records into statement groups) accumulate into a Python dict in
insertion order; these lemmas characterise `assocFold` via key lookup. -/

section AssocFoldLemmas

variable {α β κ : Type} [DecidableEq κ]
variable {keyA : α → κ} {keyB : β → κ} {mk : κ → α} {upd : α → β → α}

/-- Lookup of the first entry carrying a key. -/
def afind (keyA : α → κ) (l : List α) (k : κ) : Option α :=
  l.find? (fun a => decide (keyA a = k))

theorem afind_cons (a : α) (l : List α) (k : κ) :
    afind keyA (a :: l) k = if keyA a = k then some a else afind keyA l k := by
  by_cases h : keyA a = k <;> simp [afind, List.find?_cons, h]

theorem afind_isSome_iff (l : List α) (k : κ) :
    (afind keyA l k).isSome ↔ ∃ a ∈ l, keyA a = k := by
  induction l with
  | nil => simp [afind]
  | cons a l ih =>
    by_cases h : keyA a = k
    · simp only [afind_cons, if_pos h]
      simp only [Option.isSome_some, true_iff]
      exact ⟨a, List.mem_cons_self a l, h⟩
    · simp only [afind_cons, if_neg h, ih]
      constructor
      · rintro ⟨x, hx, hk⟩
        exact ⟨x, List.mem_cons_of_mem a hx, hk⟩
      · rintro ⟨x, hx, hk⟩
        rcases List.mem_cons.mp hx with rfl | hx
        · exact absurd hk h
        · exact ⟨x, hx, hk⟩

theorem afind_eq_some_mem {l : List α} {k : κ} {a : α}
    (h : afind keyA l k = some a) : a ∈ l ∧ keyA a = k :=
  ⟨List.mem_of_find?_eq_some h, by simpa using List.find?_some h⟩

theorem afind_of_mem_nodup {l : List α} {a : α}
    (hnd : (l.map keyA).Nodup) (ha : a ∈ l) :
    afind keyA l (keyA a) = some a := by
  induction l with
  | nil => cases ha
  | cons x xs ih =>
    rw [afind_cons]
    rcases List.mem_cons.mp ha with rfl | ha'
    · rw [if_pos rfl]
    · by_cases hx : keyA x = keyA a
      · exfalso
        have : keyA a ∈ xs.map keyA := List.mem_map_of_mem keyA ha'
        rw [List.map_cons, List.nodup_cons] at hnd
        exact hnd.1 (hx ▸ this)
      · rw [if_neg hx]
        rw [List.map_cons, List.nodup_cons] at hnd
        exact ih hnd.2 ha'

theorem any_eq_afind_isSome (l : List α) (k : κ) :
    (l.any fun a => decide (keyA a = k)) = (afind keyA l k).isSome := by
  induction l with
  | nil => rfl
  | cons a l ih =>
    by_cases h : keyA a = k <;> simp [afind_cons, h, ih]

theorem afind_map_upd
    (Hupd : ∀ (a : α) (b : β), keyA (upd a b) = keyA a)
    (l : List α) (b : β) (k : κ) :
    afind keyA (l.map (fun a => if keyA a = keyB b then upd a b else a)) k =
      (afind keyA l k).map (fun a => if keyA a = keyB b then upd a b else a) := by
  induction l with
  | nil => rfl
  | cons a l ih =>
    simp only [List.map_cons]
    rw [afind_cons, afind_cons]
    by_cases h : keyA a = k
    · have h2 : keyA (if keyA a = keyB b then upd a b else a) = k := by
        split
        · rw [Hupd]; exact h
        · exact h
      rw [if_pos h2, if_pos h]
      rfl
    · have h2 : keyA (if keyA a = keyB b then upd a b else a) ≠ k := by
        split
        · rw [Hupd]; exact h
        · exact h
      rw [if_neg h2, if_neg h, ih]

theorem afind_append_single (l : List α) (x : α) (k : κ) :
    afind keyA (l ++ [x]) k =
      match afind keyA l k with
      | some a => some a
      | none => if keyA x = k then some x else none := by
  induction l with
  | nil =>
    simp only [List.nil_append]
    rw [afind_cons]
    rfl
  | cons a l ih =>
    simp only [List.cons_append]
    rw [afind_cons, afind_cons]
    by_cases h : keyA a = k
    · rw [if_pos h, if_pos h]
    · rw [if_neg h, if_neg h, ih]

theorem afind_assocStep
    (Hupd : ∀ (a : α) (b : β), keyA (upd a b) = keyA a)
    (Hmk : ∀ k, keyA (mk k) = k)
    (l : List α) (b : β) (k : κ) :
    afind keyA (assocStep keyA keyB mk upd l b) k =
      if keyB b = k then
        some (match afind keyA l k with
              | some a => upd a b
              | none => upd (mk (keyB b)) b)
      else afind keyA l k := by
  unfold assocStep
  by_cases hany : (l.any fun a => decide (keyA a = keyB b)) = true
  · rw [if_pos hany, afind_map_upd Hupd]
    rw [any_eq_afind_isSome] at hany
    by_cases hk : keyB b = k
    · subst hk
      cases h : afind keyA l (keyB b) with
      | none => rw [h] at hany; cases hany
      | some a =>
        have := (afind_eq_some_mem h).2
        simp [this]
    · rw [if_neg hk]
      cases h : afind keyA l k with
      | none => rfl
      | some a =>
        have := (afind_eq_some_mem h).2
        have hne : keyA a ≠ keyB b := by rw [this]; exact fun hc => hk hc.symm
        simp [hne]
  · rw [if_neg hany, afind_append_single]
    rw [any_eq_afind_isSome] at hany
    have hnone : afind keyA l (keyB b) = none := by
      cases h : afind keyA l (keyB b) with
      | none => rfl
      | some a => rw [h] at hany; exact absurd rfl hany
    by_cases hk : keyB b = k
    · subst hk
      rw [hnone]
      have : keyA (upd (mk (keyB b)) b) = keyB b := by rw [Hupd, Hmk]
      · simp [this]
    · rw [if_neg hk]
      cases h : afind keyA l k with
      | none =>
        have : keyA (upd (mk (keyB b)) b) ≠ k := by rw [Hupd, Hmk]; exact hk
        · simp [this]
      | some a => rfl

end AssocFoldLemmas

section AssocFoldLemmas2

variable {α β κ : Type} [DecidableEq κ]
variable {keyA : α → κ} {keyB : β → κ} {mk : κ → α} {upd : α → β → α}

theorem afind_assocFold
    (Hupd : ∀ (a : α) (b : β), keyA (upd a b) = keyA a)
    (Hmk : ∀ k, keyA (mk k) = k)
    (bs : List β) (init : List α) (k : κ) :
    afind keyA (assocFold keyA keyB mk upd init bs) k =
      match afind keyA init k with
      | some a => some ((bs.filter fun b => decide (keyB b = k)).foldl upd a)
      | none =>
        match bs.filter (fun b => decide (keyB b = k)) with
        | [] => none
        | b0 :: rest => some ((rest).foldl upd (upd (mk k) b0)) := by
  induction bs generalizing init with
  | nil =>
    cases h : afind keyA init k <;> simp [assocFold, h]
  | cons b bs ih =>
    have hstep : assocFold keyA keyB mk upd init (b :: bs)
        = assocFold keyA keyB mk upd (assocStep keyA keyB mk upd init b) bs := rfl
    rw [hstep, ih]
    rw [afind_assocStep Hupd Hmk]
    by_cases hk : keyB b = k
    · subst hk
      have hfc : (b :: bs).filter (fun b' => decide (keyB b' = keyB b))
          = b :: bs.filter (fun b' => decide (keyB b' = keyB b)) := by
        simp [List.filter_cons]
      rw [if_pos rfl, hfc]
      cases h : afind keyA init (keyB b) with
      | some a => simp only [h, List.foldl_cons]
      | none => simp only [h]
    · have hfc : (b :: bs).filter (fun b' => decide (keyB b' = k))
          = bs.filter (fun b' => decide (keyB b' = k)) := by
        simp [List.filter_cons, hk]
      rw [if_neg hk, hfc]

theorem keys_assocStep_map
    (Hupd : ∀ (a : α) (b : β), keyA (upd a b) = keyA a)
    (l : List α) (b : β)
    (hany : (l.any fun a => decide (keyA a = keyB b)) = true) :
    (assocStep keyA keyB mk upd l b).map keyA = l.map keyA := by
  unfold assocStep
  rw [if_pos hany, List.map_map]
  apply List.map_congr_left
  intro a _
  simp only [Function.comp_apply]
  split
  · rw [Hupd]
  · rfl

theorem nodup_keys_assocStep
    (Hupd : ∀ (a : α) (b : β), keyA (upd a b) = keyA a)
    (Hmk : ∀ k, keyA (mk k) = k)
    (l : List α) (b : β) (h : (l.map keyA).Nodup) :
    ((assocStep keyA keyB mk upd l b).map keyA).Nodup := by
  by_cases hany : (l.any fun a => decide (keyA a = keyB b)) = true
  · rw [keys_assocStep_map Hupd l b hany]
    exact h
  · unfold assocStep
    rw [if_neg hany]
    rw [List.map_append]
    simp only [List.map_cons, List.map_nil]
    have hkey : keyA (upd (mk (keyB b)) b) = keyB b := by rw [Hupd, Hmk]
    rw [hkey]
    have hnotmem : keyB b ∉ l.map keyA := by
      intro hmem
      rcases List.mem_map.mp hmem with ⟨a, ha, hk⟩
      apply hany
      rw [List.any_eq_true]
      exact ⟨a, ha, by simp [hk]⟩
    simp [List.nodup_append, h, hnotmem]

theorem nodup_keys_assocFold
    (Hupd : ∀ (a : α) (b : β), keyA (upd a b) = keyA a)
    (Hmk : ∀ k, keyA (mk k) = k)
    (bs : List β) (init : List α) (h : (init.map keyA).Nodup) :
    ((assocFold keyA keyB mk upd init bs).map keyA).Nodup := by
  induction bs generalizing init with
  | nil => exact h
  | cons b bs ih =>
    exact ih (assocStep keyA keyB mk upd init b)
      (nodup_keys_assocStep Hupd Hmk init b h)

theorem isSome_afind_assocFold
    (Hupd : ∀ (a : α) (b : β), keyA (upd a b) = keyA a)
    (Hmk : ∀ k, keyA (mk k) = k)
    (bs : List β) (init : List α) (k : κ) :
    (afind keyA (assocFold keyA keyB mk upd init bs) k).isSome ↔
      (afind keyA init k).isSome ∨ ∃ b ∈ bs, keyB b = k := by
  rw [afind_assocFold Hupd Hmk]
  cases h : afind keyA init k with
  | some a => simp
  | none =>
    simp only [Option.isSome_none, Bool.false_eq_true, false_or]
    cases hf : bs.filter (fun b => decide (keyB b = k)) with
    | nil =>
      simp only [Option.isSome_none, Bool.false_eq_true, false_iff]
      rintro ⟨b, hb, hk⟩
      have : b ∈ bs.filter (fun b => decide (keyB b = k)) :=
        List.mem_filter.mpr ⟨hb, by simp [hk]⟩
      rw [hf] at this
      cases this
    | cons b0 rest =>
      simp only [Option.isSome_some, true_iff]
      have : b0 ∈ bs.filter (fun b => decide (keyB b = k)) := by
        rw [hf]; exact List.mem_cons_self b0 rest
      rcases List.mem_filter.mp this with ⟨hb, hk⟩
      exact ⟨b0, hb, by simpa using hk⟩

theorem mem_assocFold_keys
    (Hupd : ∀ (a : α) (b : β), keyA (upd a b) = keyA a)
    (Hmk : ∀ k, keyA (mk k) = k)
    (bs : List β) (init : List α) (k : κ) :
    (∃ a ∈ assocFold keyA keyB mk upd init bs, keyA a = k) ↔
      (∃ a ∈ init, keyA a = k) ∨ ∃ b ∈ bs, keyB b = k := by
  rw [← afind_isSome_iff, ← afind_isSome_iff]
  exact isSome_afind_assocFold Hupd Hmk bs init k

end AssocFoldLemmas2

/-- Folding with a guard is folding the filtered list. -/
theorem foldl_guard_eq_filter {γ δ : Type} (p : δ → Bool) (f : γ → δ → γ) :
    ∀ (l : List δ) (init : γ),
      l.foldl (fun s x => if p x then f s x else s) init
        = (l.filter p).foldl f init := by
  intro l
  induction l with
  | nil => intro init; rfl
  | cons x xs ih =>
    intro init
    cases hpx : p x with
    | false =>
      simp only [List.foldl_cons, List.filter_cons, hpx]
      simpa using ih init
    | true =>
      simp only [List.foldl_cons, List.filter_cons, hpx]
      simpa using ih (f init x)

/-! ## String helper lemmas -/

theorem strTake_length (s : String) (n : Nat) :
    (strTake s n).length = min n s.length := by
  cases s
  simp [strTake, String.length, List.length_take]

theorem strTake_of_length_le {s : String} {n : Nat} (h : s.length ≤ n) :
    strTake s n = s := by
  cases s
  exact congrArg String.mk (List.take_of_length_le h)

theorem string_ne_empty_iff_data {s : String} : s ≠ "" ↔ s.data ≠ [] := by
  cases s with
  | mk data =>
    constructor
    · intro h hd
      exact h (congrArg String.mk (by simpa using hd))
    · intro h hd
      apply h
      have := congrArg String.data hd
      simpa using this

theorem strMap_length (f : Char → Char) (s : String) :
    (strMap f s).length = s.length := by
  cases s
  simp [strMap, String.length]

theorem string_length_append (s t : String) :
    (s ++ t).length = s.length + t.length :=
  String.length_append s t

/-! ## Claim C9: PolicyDiff ratios -/

/-- C9: the resource reduction ratio equals `max 0 ((before − after) / before)`,
is 0 when the before-count is 0, and both it and the caller-supplied
access-denied reduction ratio lie in `[0, 1]`; the denied ratio likewise
equals `max 0 ((before − after) / before)` and is 0 when `before ≤ 0`. -/
theorem c9_diff_ratios (before after : PolicyDoc) (db da : Nat) :
    (resource_reduction_ratioQ before after
        = max 0 (((count_resources before : ℚ) - (count_resources after : ℚ))
            / (count_resources before : ℚ)))
  ∧ (count_resources before = 0 → resource_reduction_ratioQ before after = 0)
  ∧ 0 ≤ resource_reduction_ratioQ before after
  ∧ resource_reduction_ratioQ before after ≤ 1
  ∧ (denied_reductionQ db da
        = max 0 (((db : ℚ) - (da : ℚ)) / (db : ℚ)))
  ∧ (db ≤ 0 → denied_reductionQ db da = 0)
  ∧ 0 ≤ denied_reductionQ db da
  ∧ denied_reductionQ db da ≤ 1 := by
  have hres : ∀ (b a : Nat),
      (if b = 0 then (0 : ℚ) else max (((b : ℚ) - a) / b) 0)
        = max 0 (((b : ℚ) - a) / b) := by
    intro b a
    by_cases hb : b = 0
    · subst hb
      simp
    · rw [if_neg hb, max_comm]
  have hle1 : ∀ (b a : Nat),
      (if b = 0 then (0 : ℚ) else max (((b : ℚ) - a) / b) 0) ≤ 1 := by
    intro b a
    by_cases hb : b = 0
    · simp [hb]
    · rw [if_neg hb]
      have hbpos : (0 : ℚ) < b := by
        exact_mod_cast Nat.pos_of_ne_zero hb
      apply max_le
      · rw [div_le_one hbpos]
        have : (0 : ℚ) ≤ (a : ℚ) := Nat.cast_nonneg a
        linarith
      · linarith
  have hge0 : ∀ (b a : Nat),
      (0 : ℚ) ≤ (if b = 0 then (0 : ℚ) else max (((b : ℚ) - a) / b) 0) := by
    intro b a
    by_cases hb : b = 0
    · simp [hb]
    · rw [if_neg hb]
      exact le_max_right _ _
  have hden : ∀ (b a : Nat), denied_reductionQ b a
      = if b = 0 then (0 : ℚ) else max (((b : ℚ) - a) / b) 0 := by
    intro b a
    unfold denied_reductionQ
    by_cases hb : b = 0
    · simp [hb]
    · rw [if_neg (by omega : ¬ b ≤ 0), if_neg hb]
  have hresu : resource_reduction_ratioQ before after
      = if count_resources before = 0 then (0 : ℚ)
        else max (((count_resources before : ℚ) - count_resources after)
            / count_resources before) 0 := rfl
  refine ⟨?_, ?_, ?_, ?_, ?_, ?_, ?_, ?_⟩
  · rw [hresu, hres]
  · intro h
    rw [hresu, if_pos h]
  · rw [hresu]; exact hge0 _ _
  · rw [hresu]; exact hle1 _ _
  · rw [hden, hres]
  · intro h
    rw [hden, if_pos (by omega)]
  · rw [hden]; exact hge0 _ _
  · rw [hden]; exact hle1 _ _

/-- C9 witness: the theorem applied at a concrete diff, discharging the
zero-before hypotheses. -/
theorem c9_diff_ratios_witness :
    resource_reduction_ratioQ (mkDoc []) (mkDoc []) = 0
  ∧ denied_reductionQ 0 7 = 0 :=
  ⟨(c9_diff_ratios (mkDoc []) (mkDoc []) 0 7).2.1 rfl,
   (c9_diff_ratios (mkDoc []) (mkDoc []) 0 7).2.2.2.2.2.1 (by omega)⟩

/-! ## Claim C7: statement id format -/

/-- C7 counterexample: for the empty service name the code substitutes the
prefix `"svc"`, so the sid is `"svc_allow_001"`, not the claimed
`"_allow_001"` (empty prefix followed by the suffix). -/
theorem c7_counterexample :
    build_sid "" 1 = "svc_allow_001" ∧ "svc_allow_001" ≠ "_allow_001" := by
  constructor
  · decide
  · decide

/-- C7 amended: for every non-empty service name and counter between 1 and
999, the sid is exactly the `:`/`-`-substituted service name truncated to
40 characters, followed by `_allow_` and the three-digit zero-padded
counter, and every sid (this shape included) is at most 128 characters;
for the empty service name the prefix `"svc"` is substituted instead. -/
theorem c7_sid_format (service : String) (counter : Nat)
    (hs : service ≠ "") (h1 : 1 ≤ counter) (h2 : counter ≤ 999) :
    build_sid service counter
        = strTake (strMap (fun ch => if ch = ':' ∨ ch = '-' then '_' else ch) service) 40
            ++ "_allow_" ++ pad3 counter
  ∧ (build_sid service counter).length ≤ 128 := by
  have hpadlen : (pad3 counter).length = 3 := by
    unfold pad3
    rw [if_pos (by omega)]
    rfl
  have hpfxlen :
      (strTake (strMap (fun ch => if ch = ':' ∨ ch = '-' then '_' else ch) service) 40).length ≤ 40 := by
    rw [strTake_length]
    omega
  have htotal :
      ((strTake (strMap (fun ch => if ch = ':' ∨ ch = '-' then '_' else ch) service) 40)
          ++ "_allow_" ++ pad3 counter).length ≤ 128 := by
    rw [string_length_append, string_length_append, hpadlen]
    have h7 : ("_allow_" : String).length = 7 := rfl
    rw [h7]
    omega
  have hpfxne :
      strTake (strMap (fun ch => if ch = ':' ∨ ch = '-' then '_' else ch) service) 40 ≠ "" := by
    rw [string_ne_empty_iff_data]
    intro hnil
    have hlen := congrArg List.length hnil
    simp only [List.length_nil] at hlen
    rw [show (strTake (strMap (fun ch => if ch = ':' ∨ ch = '-' then '_' else ch) service) 40).data.length
          = (strTake (strMap (fun ch => if ch = ':' ∨ ch = '-' then '_' else ch) service) 40).length from rfl,
        strTake_length, strMap_length] at hlen
    have hdne := string_ne_empty_iff_data.mp hs
    have : 0 < service.length := by
      cases hd : service.data with
      | nil => exact absurd hd hdne
      | cons c cs =>
        show 0 < service.data.length
        rw [hd]
        simp
    omega
  have hmain : build_sid service counter
      = strTake (strMap (fun ch => if ch = ':' ∨ ch = '-' then '_' else ch) service) 40
          ++ "_allow_" ++ pad3 counter := by
    unfold build_sid
    simp only []
    rw [if_neg hpfxne]
    exact strTake_of_length_le htotal
  refine ⟨hmain, ?_⟩
  rw [hmain]
  exact htotal

/-- C7 witness: the amended sid-format theorem applied to a 200-character
service name with counter 12. -/
theorem c7_sid_format_witness :
    build_sid (String.mk (List.replicate 200 'a')) 12
        = strTake (strMap (fun ch => if ch = ':' ∨ ch = '-' then '_' else ch)
            (String.mk (List.replicate 200 'a'))) 40 ++ "_allow_" ++ pad3 12
  ∧ (build_sid (String.mk (List.replicate 200 'a')) 12).length ≤ 128 :=
  c7_sid_format (String.mk (List.replicate 200 'a')) 12 (by decide) (by omega)
    (by omega)

/-! ## Claim C3: local simulator decision -/

/-- The claim's action-match condition: the probe action equals a
statement action or matches a prefix-wildcard action pattern. -/
def spec_action_match (probe : String) (patterns : List String) : Prop :=
  ∃ pat ∈ patterns,
    pat = probe ∨ (endsWithStar pat = true ∧ strStarts probe (strDropLast pat) = true)

/-- The amended resource-match condition: with no resource patterns only
the literal wildcard probe matches; otherwise some pattern is the
wildcard, equals the probe, or prefix-wildcard-matches it.  (The original
claim additionally let a probe resource of `*` match any pattern list,
which the code does not do.) -/
def spec_resource_match (probe : String) (patterns : List String) : Prop :=
  (patterns = [] ∧ probe = "*") ∨
  (patterns ≠ [] ∧ ∃ pat ∈ patterns,
    pat = "*" ∨ pat = probe
      ∨ (endsWithStar pat = true ∧ strStarts probe (strDropLast pat) = true))

/-- A statement matches a probe per the amended claim. -/
def spec_statement_match (st : PolicyStatement) (action resource : String) :
    Prop :=
  st.effect = "Allow" ∧ spec_action_match action st.actions ∧
    spec_resource_match resource st.resources

theorem action_matches_iff (a : String) (pats : List String) :
    action_matches a pats = true ↔ spec_action_match a pats := by
  simp [action_matches, List.any_eq_true, spec_action_match]

theorem resource_matches_iff (r : String) (pats : List String) :
    resource_matches r pats = true ↔ spec_resource_match r pats := by
  by_cases h : pats = []
  · subst h
    simp [resource_matches, spec_resource_match]
  · have hne : pats.isEmpty = false := by
      simpa [List.isEmpty_iff] using h
    unfold resource_matches spec_resource_match
    rw [hne]
    simp only [Bool.false_eq_true, if_false]
    rw [List.any_eq_true]
    constructor
    · rintro ⟨pat, hmem, hpat⟩
      refine Or.inr ⟨h, pat, hmem, ?_⟩
      simp only [Bool.or_eq_true, Bool.and_eq_true, beq_iff_eq] at hpat
      tauto
    · rintro (⟨hnil, _⟩ | ⟨_, pat, hmem, hpat⟩)
      · exact absurd hnil h
      · refine ⟨pat, hmem, ?_⟩
        simp only [Bool.or_eq_true, Bool.and_eq_true, beq_iff_eq]
        tauto

theorem statement_allows_iff (st : PolicyStatement) (a r : String) :
    statement_allows st a r = true ↔ spec_statement_match st a r := by
  simp [statement_allows, spec_statement_match, action_matches_iff,
    resource_matches_iff, Bool.and_eq_true, and_assoc]

/-- C3 amended: per probe, the local decision is `Deny` by default and
`Allow` exactly when some statement has effect `Allow`, an action pattern
equal to the probe action or a matching prefix wildcard, and a resource
pattern list that is empty with probe `*`, or contains `*`, the probe
resource itself, or a matching prefix wildcard.  (Corrected from the
original claim: a probe resource of `*` gets no special treatment, so it
does not match statements with only concrete resource patterns.) -/
theorem c3_local_simulation (policy : PolicyDoc) (action resource : String) :
    (local_decision policy action resource = "Allow"
        ∨ local_decision policy action resource = "Deny")
  ∧ (local_decision policy action resource = "Allow"
        ↔ ∃ st ∈ policy.statements, spec_statement_match st action resource) := by
  unfold local_decision
  by_cases h : (policy.statements.any fun st => statement_allows st action resource) = true
  · rw [if_pos h]
    refine ⟨Or.inl rfl, ?_⟩
    simp only [true_iff]
    rw [List.any_eq_true] at h
    rcases h with ⟨st, hmem, hallow⟩
    exact ⟨st, hmem, (statement_allows_iff st action resource).mp hallow⟩
  · rw [if_neg h]
    refine ⟨Or.inr rfl, ?_⟩
    constructor
    · intro hcontra
      exact absurd hcontra (by decide)
    · rintro ⟨st, hmem, hmatch⟩
      exfalso
      apply h
      rw [List.any_eq_true]
      exact ⟨st, hmem, (statement_allows_iff st action resource).mpr hmatch⟩

/-- The concrete document used to refute C3's wildcard-probe clause. -/
def c3doc : PolicyDoc :=
  { statements :=
      [{ sid := none, effect := "Allow", actions := ["s3:GetObject"],
         resources := ["arn:aws:s3:::b"], conditions := [] }] }

/-- C3 counterexample: a document with one Allow statement whose action
matches the probe action; the claim as stated says a probe with resource
`*` matches any such statement regardless of its concrete resource
patterns, but the code returns Deny. -/
theorem c3_counterexample :
    local_decision c3doc "s3:GetObject" "*" = "Deny"
  ∧ c3doc.statements.map (fun st => st.effect) = ["Allow"]
  ∧ action_matches "s3:GetObject"
      ((c3doc.statements.map (fun st => st.actions)).flatten) = true
  ∧ "Deny" ≠ "Allow" := by
  refine ⟨?_, ?_, ?_, ?_⟩ <;> decide

/-! ## Claim C1: scope inference in resources mode -/

/-- Registry with a (non-default) rule registered for `s3`; the extractor
would return a non-empty set if it were ever consulted. -/
def c1reg : ArnRuleRegistry :=
  registerRule { service_rules := [] } "s3" (fun _ => ["arn:aws:s3:::things"])

/-- Generator in resources mode with the default capability table and the
registry above. -/
def c1gen : PolicyGenerator :=
  { arn_rules := c1reg
    resource_levels := defaultResourceLevelIndex
    mode := "resources" }

/-- A usage record with an empty observed-resource list whose action is
scoping-capable. -/
def c1rec : ActionRecord :=
  { principal_arn := "arn:aws:iam::123456789012:role/T"
    service := "s3"
    action := "s3:GetObject"
    count := 1 }

/-- C1 counterexample: despite mode `resources`, a scoping-capable action
and a registered rule for the record's service, `infer_from_record`
returns the empty set for a record with no observed resources, so the
synthesized statement carries the wildcard, not a concrete resource. -/
theorem c1_counterexample :
    c1gen.mode = "resources"
  ∧ allows_scoping c1gen.resource_levels c1rec.action = true
  ∧ ((c1gen.arn_rules.service_rules.lookup c1rec.service).getD []).isEmpty = false
  ∧ c1rec.resources = []
  ∧ infer_from_record c1gen.arn_rules c1rec = []
  ∧ determine_resources c1gen c1rec = ["*"]
  ∧ (compose_statements c1gen [c1rec]).map (fun st => st.resources) = [["*"]] := by
  refine ⟨rfl, ?_, ?_, rfl, rfl, ?_, ?_⟩ <;> decide

/-- C1 amended: for a usage record with no observed resources,
`infer_from_record` ignores the registered extractors and returns the
empty set, so under any mode and capability table the synthesized scope
is the wildcard singleton; the registry's result would be used only if it
were non-empty, which never happens for such a record. -/
theorem c1_inference_wildcard (g : PolicyGenerator) (record : ActionRecord)
    (h : record.resources = []) :
    infer_from_record g.arn_rules record = []
  ∧ determine_resources g record = ["*"] := by
  have hinf : infer_from_record g.arn_rules record = [] := by
    unfold infer_from_record
    rw [h]
    rfl
  refine ⟨hinf, ?_⟩
  unfold determine_resources
  rw [h]
  simp only [List.isEmpty_nil, Bool.not_true, Bool.false_eq_true, if_false]
  rw [hinf]
  by_cases hmode : (g.mode == "resources" && allows_scoping g.resource_levels record.action) = true
  · rw [if_pos hmode]
    rfl
  · rw [if_neg hmode]

/-- C1 witness: the amended theorem applied to the concrete record. -/
theorem c1_inference_wildcard_witness :
    infer_from_record c1gen.arn_rules c1rec = []
  ∧ determine_resources c1gen c1rec = ["*"] :=
  c1_inference_wildcard c1gen c1rec rfl

/-! ## Claim C6: condition reducer -/

theorem dlookup_cons (a : String × CondVal) (l : CondMap) (k : String) :
    dlookup (a :: l) k = if k = a.1 then some a.2 else dlookup l k := rfl

theorem dlookup_mem_keys {l : CondMap} {k : String} {w : CondVal}
    (h : dlookup l k = some w) : k ∈ l.map Prod.fst := by
  induction l with
  | nil => cases h
  | cons a l ih =>
    rw [dlookup_cons] at h
    by_cases hk : k = a.1
    · rw [List.map_cons]
      exact hk ▸ List.mem_cons_self _ _
    · rw [if_neg hk] at h
      exact List.mem_cons_of_mem _ (ih h)

theorem dlookup_dinsert (m : CondMap) (k : String) (v : CondVal)
    (k' : String) :
    dlookup (dinsert m k v) k' = if k' = k then some v else dlookup m k' := by
  induction m with
  | nil =>
    show dlookup [(k, v)] k' = _
    rw [dlookup_cons]
  | cons p rest ih =>
    obtain ⟨k0, v0⟩ := p
    show dlookup (match strCmp k k0 with
      | Ordering.lt => (k, v) :: (k0, v0) :: rest
      | Ordering.eq => (k, v) :: rest
      | Ordering.gt => (k0, v0) :: dinsert rest k v) k' = _
    cases hc : strCmp k k0 with
    | lt => rw [dlookup_cons]
    | eq =>
      have hk : k = k0 := (strCmp_lawful.1 k k0).mp hc
      subst hk
      by_cases h : k' = k <;> simp [dlookup_cons, h]
    | gt =>
      have hk : k ≠ k0 := by
        intro hEq
        rw [(strCmp_lawful.1 k k0).mpr hEq] at hc
        cases hc
      by_cases h0 : k' = k0
      · have h1 : k' ≠ k := fun hcontra => hk (hcontra.symm.trans h0)
        simp [dlookup_cons, h0, h1, Ne.symm hk]
      · simp [dlookup_cons, h0, ih]

theorem merge_one_lookup (m cond : CondMap) (op : String)
    (h : (cond.map Prod.fst).Nodup) :
    dlookup (merge_one m cond) op =
      match dlookup cond op with
      | none => dlookup m op
      | some v =>
        match dlookup m op with
        | none => some v
        | some ex => some (combine_values ex v) := by
  induction cond generalizing m with
  | nil => rfl
  | cons p rest ih =>
    obtain ⟨k, v⟩ := p
    rw [List.map_cons, List.nodup_cons] at h
    have hknotin : dlookup rest k = none := by
      cases hl : dlookup rest k with
      | none => rfl
      | some w => exact absurd (dlookup_mem_keys hl) h.1
    have hstep : merge_one m ((k, v) :: rest)
        = merge_one (merge_entry m (k, v)) rest := rfl
    rw [hstep, ih _ h.2]
    by_cases hop : op = k
    · subst hop
      rw [hknotin, dlookup_cons, if_pos rfl]
      show dlookup (merge_entry m (op, v)) op = _
      unfold merge_entry
      cases hm : dlookup m op with
      | none =>
        simp only []
        rw [dlookup_dinsert, if_pos rfl]
      | some ex =>
        simp only []
        rw [dlookup_dinsert, if_pos rfl]
    · rw [dlookup_cons, if_neg hop]
      have hinner : dlookup (merge_entry m (k, v)) op = dlookup m op := by
        unfold merge_entry
        cases hm : dlookup m k with
        | none =>
          simp only []
          rw [dlookup_dinsert, if_neg hop]
        | some ex =>
          simp only []
          rw [dlookup_dinsert, if_neg hop]
      rw [hinner]

/-- Left fold of `_combine_values` over the occurrence list of one
operator, starting from an optional already-present value. -/
def combineInto : Option CondVal → List CondVal → Option CondVal
  | o, [] => o
  | none, v :: vs => combineInto (some v) vs
  | some ex, v :: vs => combineInto (some (combine_values ex v)) vs

theorem combineInto_append (o : Option CondVal) (xs ys : List CondVal) :
    combineInto o (xs ++ ys) = combineInto (combineInto o xs) ys := by
  induction xs generalizing o with
  | nil => cases o <;> rfl
  | cons x xs ih => cases o <;> exact ih _

theorem combineInto_some (a : CondVal) (vs : List CondVal) :
    combineInto (some a) vs = some (vs.foldl combine_values a) := by
  induction vs generalizing a with
  | nil => rfl
  | cons v vs ih => exact ih _

/-- The values observed for one operator across the per-event condition
dicts, in order. -/
def occurrences (conds : List CondMap) (op : String) : List CondVal :=
  conds.filterMap (fun c => dlookup c op)

theorem merge_fold_lookup (conds : List CondMap) (m : CondMap) (op : String)
    (h : ∀ c ∈ conds, (c.map Prod.fst).Nodup) :
    dlookup (conds.foldl merge_one m) op
      = combineInto (dlookup m op) (occurrences conds op) := by
  induction conds generalizing m with
  | nil =>
    show dlookup m op = combineInto (dlookup m op) (occurrences [] op)
    cases dlookup m op <;> rfl
  | cons c rest ih =>
    have hc := h c (List.mem_cons_self c rest)
    have hrest := fun c' hc' => h c' (List.mem_cons_of_mem _ hc')
    rw [List.foldl_cons, ih _ hrest]
    have hocc : occurrences (c :: rest) op
        = (match dlookup c op with | none => [] | some v => [v])
            ++ occurrences rest op := by
      unfold occurrences
      rw [List.filterMap_cons]
      cases dlookup c op <;> rfl
    rw [hocc, combineInto_append]
    congr 1
    rw [merge_one_lookup m c op hc]
    cases hcop : dlookup c op with
    | none => cases dlookup m op <;> rfl
    | some v => cases hm : dlookup m op <;> rfl

/-- C6 amended: merging folds left-to-right per operator — the first
occurrence is kept as-is and later occurrences are folded in with
`_combine_values`; two sequences combine to the sorted union of their
unique elements; two equal strings keep the string; two distinct strings
widen to the sorted pair; any other combination, including two integer
scalars (equal or not), lets the later value overwrite the former. -/
theorem c6_condition_merge :
    (∀ (conds : List CondMap) (op : String),
        (∀ c ∈ conds, (c.map Prod.fst).Nodup) →
        dlookup (ConditionReducer.merge conds) op =
          match occurrences conds op with
          | [] => none
          | v :: vs => some (vs.foldl combine_values v))
  ∧ (∀ a b, combine_values (CondVal.ls a) (CondVal.ls b)
        = CondVal.ls (sortedSet (a ++ b)))
  ∧ (∀ a b x, x ∈ sortedSet (a ++ b) ↔ x ∈ a ∨ x ∈ b)
  ∧ (∀ l : List String, (sortedSet l).Sorted strLE ∧ (sortedSet l).Nodup)
  ∧ (∀ a, combine_values (CondVal.s a) (CondVal.s a) = CondVal.s a)
  ∧ (∀ a b, a ≠ b →
        combine_values (CondVal.s a) (CondVal.s b) = CondVal.ls (sortStr [a, b]))
  ∧ (∀ m n : Int, combine_values (CondVal.i m) (CondVal.i n) = CondVal.i n) := by
  refine ⟨?_, ?_, ?_, ?_, ?_, ?_, ?_⟩
  · intro conds op h
    have := merge_fold_lookup conds [] op h
    rw [ConditionReducer.merge, this]
    cases occurrences conds op with
    | nil => rfl
    | cons v vs =>
      show combineInto (some v) vs = _
      rw [combineInto_some]
  · intro a b; rfl
  · intro a b x
    unfold sortedSet sortStr
    rw [(List.perm_insertionSort strLE ((a ++ b).dedup)).mem_iff]
    simp [List.mem_dedup]
  · intro l
    constructor
    · exact List.sorted_insertionSort strLE l.dedup
    · exact (List.perm_insertionSort strLE l.dedup).nodup_iff.mpr l.nodup_dedup
  · intro a; simp [combine_values]
  · intro a b h; simp [combine_values, h]
  · intro m n; rfl

/-- C6 counterexample: for two colliding integer scalars the later value
overwrites the earlier one entirely (the result does not even depend on
the earlier value), where the claim requires a sorted two-element set of
both scalars. -/
theorem c6_counterexample :
    ConditionReducer.merge [[("k", CondVal.i 1)], [("k", CondVal.i 2)]]
        = [("k", CondVal.i 2)]
  ∧ ConditionReducer.merge [[("k", CondVal.i 99)], [("k", CondVal.i 2)]]
        = [("k", CondVal.i 2)]
  ∧ CondVal.i 2 ≠ CondVal.i 1 := by
  refine ⟨?_, ?_, ?_⟩ <;> decide

/-- C6 witness: the merge characterization applied to two colliding
string scalars. -/
theorem c6_condition_merge_witness :
    dlookup (ConditionReducer.merge [[("A", CondVal.s "x")], [("A", CondVal.s "y")]]) "A"
      = some (CondVal.ls ["x", "y"]) := by
  have h := c6_condition_merge.1
    [[("A", CondVal.s "x")], [("A", CondVal.s "y")]] "A" (by decide)
  rw [h]
  decide

/-! ## Claim C2: folding events into records -/

theorem insertUniqueAll_mem (acc xs : List String) (x : String) :
    x ∈ insertUniqueAll acc xs ↔ x ∈ acc ∨ x ∈ xs := by
  induction xs generalizing acc with
  | nil => simp [insertUniqueAll]
  | cons y ys ih =>
    show x ∈ insertUniqueAll (if y ∈ acc then acc else acc ++ [y]) ys ↔ _
    rw [ih]
    by_cases hy : y ∈ acc
    · rw [if_pos hy]
      constructor
      · rintro (h | h)
        · exact Or.inl h
        · exact Or.inr (List.mem_cons_of_mem _ h)
      · rintro (h | h)
        · exact Or.inl h
        · rcases List.mem_cons.mp h with rfl | h2
          · exact Or.inl hy
          · exact Or.inr h2
    · rw [if_neg hy]
      simp only [List.mem_append, List.mem_singleton, List.mem_cons]
      tauto

theorem insertUniqueAll_nodup (acc xs : List String) (h : acc.Nodup) :
    (insertUniqueAll acc xs).Nodup := by
  induction xs generalizing acc with
  | nil => exact h
  | cons y ys ih =>
    show (insertUniqueAll (if y ∈ acc then acc else acc ++ [y]) ys).Nodup
    apply ih
    by_cases hy : y ∈ acc
    · rwa [if_pos hy]
    · rw [if_neg hy]
      simp [List.nodup_append, h, hy]

theorem insertUniqueAll_prefix (acc xs : List String) :
    acc <+: insertUniqueAll acc xs := by
  induction xs generalizing acc with
  | nil => exact List.prefix_refl acc
  | cons y ys ih =>
    show acc <+: insertUniqueAll (if y ∈ acc then acc else acc ++ [y]) ys
    by_cases hy : y ∈ acc
    · rw [if_pos hy]; exact ih acc
    · rw [if_neg hy]
      exact List.IsPrefix.trans (List.prefix_append acc [y]) (ih _)

theorem conditions_register (r : ActionRecord) (e : EventModel) :
    (r.register e).conditions = r.conditions := rfl

theorem foldStates_conditions (agg : ActionAggregator)
    (events : List EventModel) :
    ∀ (states : List ActionRecord), (∀ r ∈ states, r.conditions = []) →
      ∀ r ∈ events.foldl (stepStates agg) states, r.conditions = [] := by
  induction events with
  | nil => intro states h r hr; exact h r hr
  | cons e es ih =>
    intro states h r hr
    refine ih (stepStates agg states e) ?_ r hr
    intro r' hr'
    unfold stepStates at hr'
    by_cases hq : qualifies agg e = true
    · rw [if_pos hq] at hr'
      unfold assocStep at hr'
      by_cases hany : (states.any fun a => decide (recKey a = eventKey e)) = true
      · rw [if_pos hany] at hr'
        rcases List.mem_map.mp hr' with ⟨x, hx, hrx⟩
        subst hrx
        split
        · rw [conditions_register]
          exact h x hx
        · exact h x hx
      · rw [if_neg hany] at hr'
        rcases List.mem_append.mp hr' with hx | hx
        · exact h r' hx
        · rcases List.mem_singleton.mp hx with rfl
          rfl
    · rw [if_neg hq] at hr'
      exact h r' hr'

/-- C2 amended: folding an event into a usage record increments the
count, raises last-seen to the maximum observed timestamp, unions the
resource identifiers in first-seen order — and leaves the condition list
untouched; consequently every record produced by aggregation (whose
records start with an empty condition list) has an empty condition list,
not one entry per folded event. -/
theorem c2_register_conditions :
    (∀ (r : ActionRecord) (e : EventModel),
        (r.register e).conditions = r.conditions
      ∧ (r.register e).count = r.count + 1
      ∧ (r.register e).last_seen
          = some (match r.last_seen with
                  | none => e.event_time
                  | some t => max t e.event_time)
      ∧ (∀ x, x ∈ (r.register e).resources ↔ x ∈ r.resources ∨ x ∈ e.resource_arns)
      ∧ (r.resources.Nodup → (r.register e).resources.Nodup)
      ∧ r.resources <+: (r.register e).resources)
  ∧ (∀ (agg : ActionAggregator) (events : List EventModel) (r : ActionRecord),
        r ∈ aggregate agg events → r.conditions = []) := by
  constructor
  · intro r e
    refine ⟨rfl, rfl, ?_, ?_, ?_, ?_⟩
    · cases hls : r.last_seen with
      | none => simp [ActionRecord.register, hls]
      | some t =>
        simp only [ActionRecord.register, hls, Option.some.injEq]
        split_ifs <;> omega
    · intro x
      exact insertUniqueAll_mem r.resources e.resource_arns x
    · intro h
      exact insertUniqueAll_nodup r.resources e.resource_arns h
    · exact insertUniqueAll_prefix r.resources e.resource_arns
  · intro agg events r hr
    unfold aggregate sortRecords at hr
    rw [(List.perm_insertionSort recLE _).mem_iff] at hr
    have hfold := (List.mem_filter.mp hr).1
    exact foldStates_conditions agg events [] (by intro r' hr'; cases hr') r hfold

/-- Concrete event and default aggregator used in witnesses and
counterexamples below. -/
def c2ev : EventModel :=
  { event_time := 5
    principal_arn := "arn:aws:iam::123456789012:user/Alice"
    account_id := "123456789012"
    region := "us-east-1"
    action := "GetObject"
    request_parameters := []
    resource_arns := ["arn:aws:s3:::example/x"]
    aws_service := "s3" }

/-- Default-configuration aggregator. -/
def c2agg : ActionAggregator :=
  mkActionAggregator none [] [] [] [] 1

/-- The record that aggregating the single event produces. -/
def c2out : ActionRecord :=
  { principal_arn := "arn:aws:iam::123456789012:user/Alice"
    service := "s3"
    action := "s3:GetObject"
    count := 1
    resources := ["arn:aws:s3:::example/x"]
    conditions := []
    last_seen := some 5 }

/-- C2 counterexample: one qualifying event folded into one record leaves
the record's condition list with 0 entries, not 1. -/
theorem c2_counterexample :
    (aggregate c2agg [c2ev]).map (fun r => (r.count, r.conditions.length))
        = [(1, 0)]
  ∧ (0 : Nat) ≠ 1 := by
  refine ⟨?_, ?_⟩ <;> decide

/-- C2 witness: the amended theorem applied to the concrete aggregation
and a concrete register call. -/
theorem c2_register_conditions_witness :
    c2out.conditions = []
  ∧ (ActionRecord.register c2out c2ev).resources.Nodup :=
  ⟨c2_register_conditions.2 c2agg [c2ev] c2out (by decide),
   (c2_register_conditions.1 c2out c2ev).2.2.2.2.1 (by decide)⟩

/-! ## Claim C8: statement chunking -/

theorem chunksOfAux_flatten {α : Type} (m : Nat) (hm : 1 ≤ m) :
    ∀ (fuel : Nat) (l : List α), l.length ≤ fuel →
      (chunksOfAux m fuel l).flatten = l := by
  intro fuel
  induction fuel with
  | zero =>
    intro l hl
    cases l with
    | nil => rfl
    | cons x xs => simp at hl
  | succ fuel ih =>
    intro l hl
    cases l with
    | nil => rfl
    | cons x xs =>
      show ((x :: xs).take m :: chunksOfAux m fuel ((x :: xs).drop m)).flatten
          = x :: xs
      rw [List.flatten_cons]
      rw [ih ((x :: xs).drop m) (by rw [List.length_drop]; simp at hl ⊢; omega)]
      exact List.take_append_drop m (x :: xs)

theorem chunksOfAux_length_le {α : Type} (m : Nat) :
    ∀ (fuel : Nat) (l : List α) (c : List α),
      c ∈ chunksOfAux m fuel l → c.length ≤ m := by
  intro fuel
  induction fuel with
  | zero =>
    intro l c hc
    cases l with
    | nil => cases hc
    | cons x xs => cases hc
  | succ fuel ih =>
    intro l c hc
    cases l with
    | nil => cases hc
    | cons x xs =>
      rcases List.mem_cons.mp hc with rfl | h2
      · simp only [List.length_take]
        omega
      · exact ih _ c h2

theorem chunk_statements_some (g : PolicyGenerator) (m : Int)
    (sts : List PolicyStatement) (hm : g.max_statements = some m) :
    chunk_statements g sts =
      if m = 0 ∨ (sts.length : Int) ≤ m then [mkDoc sts]
      else if m < 0 then []
      else (chunksOf m.toNat sts).map mkDoc := by
  unfold chunk_statements
  rw [hm]

/-- C8 amended: an unset limit (and likewise a falsy limit of 0) yields a
single document with all statements; a limit set to a positive `m` splits
the list into consecutive chunks of at most `m` statements whose
concatenation is the original list, the first chunk being the primary
document of `build` and the remaining chunks its overflow documents. -/
theorem c8_chunking (g : PolicyGenerator) (sts : List PolicyStatement) :
    (g.max_statements = none → chunk_statements g sts = [mkDoc sts])
  ∧ (∀ m : Int, g.max_statements = some m → 1 ≤ m →
      ((chunk_statements g sts).map PolicyDoc.statements).flatten = sts
    ∧ ∀ d ∈ chunk_statements g sts, (d.statements.length : Int) ≤ m)
  ∧ (∀ (records : List ActionRecord) (pr : PolicyDoc) (ov : List PolicyDoc),
      records ≠ [] → build g records = some (pr, ov) →
      pr :: ov = chunk_statements g (buildStatements g records)) := by
  refine ⟨?_, ?_, ?_⟩
  · intro h
    unfold chunk_statements
    rw [h]
  · intro m hm h1
    rw [chunk_statements_some g m sts hm]
    by_cases hc : m = 0 ∨ (sts.length : Int) ≤ m
    · rw [if_pos hc]
      have hlen : (sts.length : Int) ≤ m := by
        rcases hc with h0 | hl
        · omega
        · exact hl
      constructor
      · simp [mkDoc]
      · intro d hd
        rcases List.mem_singleton.mp hd with rfl
        exact hlen
    · rw [if_neg hc, if_neg (by omega : ¬ m < 0)]
      have hmn : 1 ≤ m.toNat := by omega
      constructor
      · rw [List.map_map]
        have hms : PolicyDoc.statements ∘ mkDoc = id := rfl
        rw [hms, List.map_id]
        exact chunksOfAux_flatten m.toNat hmn sts.length sts (le_refl _)
      · intro d hd
        rcases List.mem_map.mp hd with ⟨c, hcmem, rfl⟩
        have := chunksOfAux_length_le m.toNat sts.length sts c hcmem
        show ((c.length : Int)) ≤ m
        omega
  · intro records pr ov hne hbuild
    unfold build at hbuild
    rw [if_neg (by simpa [List.isEmpty_iff] using hne)] at hbuild
    cases hch : chunk_statements g (buildStatements g records) with
    | nil => rw [hch] at hbuild; cases hbuild
    | cons d rest =>
      rw [hch] at hbuild
      injection hbuild with h1
      injection h1 with hpr hov
      rw [← hpr, ← hov]

/-- Generator with the falsy statement limit 0. -/
def c8gen0 : PolicyGenerator :=
  { arn_rules := c1reg
    resource_levels := defaultResourceLevelIndex
    mode := "actions"
    max_statements := some 0 }

/-- Generator with statement limit 1. -/
def c8gen1 : PolicyGenerator :=
  { arn_rules := c1reg
    resource_levels := defaultResourceLevelIndex
    mode := "actions"
    max_statements := some 1 }

/-- First sample record (an s3 statement group). -/
def c8r1 : ActionRecord :=
  { principal_arn := "p", service := "s3", action := "s3:PutObject",
    count := 1, resources := ["arn:aws:s3:::b"] }

/-- Second sample record (an sqs statement group). -/
def c8r2 : ActionRecord :=
  { principal_arn := "p", service := "sqs", action := "sqs:SendMessage",
    count := 1, resources := ["arn:aws:sqs:us-east-1:1:q"] }

/-- C8 counterexample: with `maxStatementsPerDocument` set to 0 (a set
value, but falsy in Python), two statement groups produce a single
primary document holding both statements and no overflow — not chunks of
at most 0 statements. -/
theorem c8_counterexample :
    (build c8gen0 [c8r1, c8r2]).map
        (fun pr => (pr.1.statements.length, pr.2.length)) = some (2, 0)
  ∧ ¬ (2 ≤ 0) := by
  refine ⟨?_, ?_⟩ <;> decide

/-- C8 witness: limit 1 on two statement groups yields a primary document
with one statement and exactly one overflow document with the other. -/
theorem c8_chunking_witness :
    chunk_statements c8gen1 (buildStatements c8gen1 [c8r1, c8r2])
        = [mkDoc [mkStatement ("s3", ["arn:aws:s3:::b"], []) ["s3:PutObject"] 1],
           mkDoc [mkStatement ("sqs", ["arn:aws:sqs:us-east-1:1:q"], []) ["sqs:SendMessage"] 1]]
  ∧ ((chunk_statements c8gen1 (buildStatements c8gen1 [c8r1, c8r2])).map
        PolicyDoc.statements).flatten = buildStatements c8gen1 [c8r1, c8r2]
  ∧ ∀ d ∈ chunk_statements c8gen1 (buildStatements c8gen1 [c8r1, c8r2]),
      (d.statements.length : Int) ≤ 1 :=
  ⟨by decide,
   ((c8_chunking c8gen1 (buildStatements c8gen1 [c8r1, c8r2])).2.1 1 rfl
      (by omega)).1,
   ((c8_chunking c8gen1 (buildStatements c8gen1 [c8r1, c8r2])).2.1 1 rfl
      (by omega)).2⟩

/-! ## Claim C4: aggregate characterization -/

theorem recKey_register (r : ActionRecord) (e : EventModel) :
    recKey (r.register e) = recKey r := rfl

theorem recKey_newRecord (k : AggKey) : recKey (newRecord k) = k := rfl

theorem foldStates_eq_assocFold (agg : ActionAggregator)
    (events : List EventModel) :
    foldStates agg events
      = assocFold recKey eventKey newRecord ActionRecord.register []
          (events.filter (qualifies agg)) := by
  unfold foldStates assocFold
  have hstep : stepStates agg = fun states e =>
      if qualifies agg e
      then assocStep recKey eventKey newRecord ActionRecord.register states e
      else states := by
    funext states e
    rfl
  rw [hstep]
  exact foldl_guard_eq_filter (qualifies agg)
    (assocStep recKey eventKey newRecord ActionRecord.register) events []

theorem foldl_register_count (es : List EventModel) (r : ActionRecord) :
    (es.foldl ActionRecord.register r).count = r.count + es.length := by
  induction es generalizing r with
  | nil => rfl
  | cons e es ih =>
    rw [List.foldl_cons, ih]
    show (r.register e).count + es.length = _
    have : (r.register e).count = r.count + 1 := rfl
    rw [this]
    simp only [List.length_cons]
    omega

/-- Number of qualifying events carrying a given aggregation key. -/
def countQual (agg : ActionAggregator) (events : List EventModel)
    (k : AggKey) : Nat :=
  ((events.filter (qualifies agg)).filter
      (fun e => decide (eventKey e = k))).length

/-- C4: after folding, there is at most one record per key (keys are
nodup), a key is present iff some qualifying event carries it, each
record's count is the number of qualifying events for its key; the
aggregate output consists exactly of the folded records meeting the
minimum count and not allowlisted, in strictly increasing key order
(sorted by (principal, service, action)). -/
theorem c4_aggregate (agg : ActionAggregator) (events : List EventModel) :
    ((foldStates agg events).map recKey).Nodup
  ∧ (∀ r ∈ foldStates agg events, r.count = countQual agg events (recKey r))
  ∧ (∀ k : AggKey,
      (∃ r ∈ foldStates agg events, recKey r = k)
        ↔ ∃ e ∈ events, qualifies agg e = true ∧ eventKey e = k)
  ∧ (∀ r : ActionRecord,
      r ∈ aggregate agg events
        ↔ r ∈ foldStates agg events
          ∧ agg.min_count ≤ (r.count : Int)
          ∧ is_allowlisted agg r.action r.principal_arn r.resources = false)
  ∧ (aggregate agg events).Pairwise
      (fun r1 r2 => aggCmp (recKey r1) (recKey r2) = Ordering.lt) := by
  have Hupd : ∀ (a : ActionRecord) (b : EventModel),
      recKey (a.register b) = recKey a := fun _ _ => rfl
  have Hmk : ∀ k : AggKey, recKey (newRecord k) = k := fun _ => rfl
  have hfold := foldStates_eq_assocFold agg events
  have hnodup : ((foldStates agg events).map recKey).Nodup := by
    rw [hfold]
    exact nodup_keys_assocFold Hupd Hmk _ [] (by simp)
  have hcount : ∀ r ∈ foldStates agg events,
      r.count = countQual agg events (recKey r) := by
    intro r hr
    have h1 : afind recKey (foldStates agg events) (recKey r) = some r :=
      afind_of_mem_nodup hnodup hr
    rw [hfold, afind_assocFold Hupd Hmk] at h1
    have hnone : afind recKey ([] : List ActionRecord) (recKey r) = none := rfl
    rw [hnone] at h1
    cases hf : (events.filter (qualifies agg)).filter
        (fun e => decide (eventKey e = recKey r)) with
    | nil =>
      rw [hf] at h1
      replace h1 : (none : Option ActionRecord) = some r := h1
      cases h1
    | cons e0 rest =>
      rw [hf] at h1
      replace h1 : some (rest.foldl ActionRecord.register
          ((newRecord (recKey r)).register e0)) = some r := h1
      injection h1 with h1
      have hcnt := congrArg ActionRecord.count h1
      rw [foldl_register_count] at hcnt
      have hnew : ((newRecord (recKey r)).register e0).count = 1 := rfl
      rw [hnew] at hcnt
      unfold countQual
      rw [hf]
      simp only [List.length_cons]
      omega
  have hmem : ∀ k : AggKey,
      (∃ r ∈ foldStates agg events, recKey r = k)
        ↔ ∃ e ∈ events, qualifies agg e = true ∧ eventKey e = k := by
    intro k
    rw [hfold, mem_assocFold_keys Hupd Hmk]
    constructor
    · rintro (⟨a, ha, _⟩ | ⟨e, he, hk⟩)
      · cases ha
      · rcases List.mem_filter.mp he with ⟨hev, hq⟩
        exact ⟨e, hev, hq, hk⟩
    · rintro ⟨e, hev, hq, hk⟩
      exact Or.inr ⟨e, List.mem_filter.mpr ⟨hev, hq⟩, hk⟩
  have haggmem : ∀ r : ActionRecord,
      r ∈ aggregate agg events
        ↔ r ∈ foldStates agg events
          ∧ agg.min_count ≤ (r.count : Int)
          ∧ is_allowlisted agg r.action r.principal_arn r.resources = false := by
    intro r
    unfold aggregate sortRecords
    rw [(List.perm_insertionSort recLE _).mem_iff, List.mem_filter]
    unfold keeps
    simp [Bool.and_eq_true, Bool.not_eq_true', and_assoc]
  refine ⟨hnodup, hcount, hmem, haggmem, ?_⟩
  have hsorted : (aggregate agg events).Pairwise recLE :=
    List.sorted_insertionSort recLE _
  have hperm : List.Perm (aggregate agg events)
      ((foldStates agg events).filter (keeps agg)) :=
    List.perm_insertionSort recLE _
  have hfilter_nodup : (((foldStates agg events).filter (keeps agg)).map recKey).Nodup :=
    ((List.filter_sublist (foldStates agg events)).map recKey).nodup hnodup
  have hkeysnd : ((aggregate agg events).map recKey).Nodup :=
    (hperm.map recKey).nodup_iff.mpr hfilter_nodup
  have hne : (aggregate agg events).Pairwise
      (fun a b => recKey a ≠ recKey b) := List.pairwise_map.mp hkeysnd
  exact (hsorted.and hne).imp
    (fun hab => lt_of_leOfCmp_of_ne aggCmp_lawful hab.1 hab.2)

/-- C4 witness: the characterization applied to a concrete aggregation. -/
theorem c4_aggregate_witness :
    c2out.count = countQual c2agg [c2ev] (recKey c2out)
  ∧ ∃ r ∈ foldStates c2agg [c2ev], recKey r = recKey c2out :=
  ⟨(c4_aggregate c2agg [c2ev]).2.1 c2out (by decide),
   ((c4_aggregate c2agg [c2ev]).2.2.1 (recKey c2out)).mpr
     ⟨c2ev, by decide, by decide, by decide⟩⟩

/-! ## Claim C10: minimum-count clamping -/

theorem foldStates_count_pos (agg : ActionAggregator)
    (events : List EventModel) :
    ∀ (states : List ActionRecord), (∀ r ∈ states, 1 ≤ r.count) →
      ∀ r ∈ events.foldl (stepStates agg) states, 1 ≤ r.count := by
  induction events with
  | nil => intro s h r hr; exact h r hr
  | cons e es ih =>
    intro s h r hr
    refine ih _ ?_ r hr
    intro r' hr'
    unfold stepStates at hr'
    by_cases hq : qualifies agg e = true
    · rw [if_pos hq] at hr'
      unfold assocStep at hr'
      by_cases hany : (s.any fun a => decide (recKey a = eventKey e)) = true
      · rw [if_pos hany] at hr'
        rcases List.mem_map.mp hr' with ⟨x, hx, hrx⟩
        subst hrx
        have hx1 := h x hx
        split
        · show 1 ≤ x.count + 1
          omega
        · exact hx1
      · rw [if_neg hany] at hr'
        rcases List.mem_append.mp hr' with hx | hx
        · exact h r' hx
        · rcases List.mem_singleton.mp hx with rfl
          exact le_refl 1
    · rw [if_neg hq] at hr'
      exact h r' hr'

/-- C10: the constructor clamps the minimum count to `max(minCount, 1)`
for any integer (construction never fails); every folded record has count
at least 1, so with `minCount ≤ 1` aggregation equals aggregation with
`minCount = 1` and no record is ever dropped on account of its count —
the survivors are exactly the non-allowlisted folded records, sorted. -/
theorem c10_min_count (pp : Option (String → Bool))
    (ex al ap ar : List String) (m : Int) (events : List EventModel) :
    (mkActionAggregator pp ex al ap ar m).min_count = max m 1
  ∧ (∀ r ∈ foldStates (mkActionAggregator pp ex al ap ar m) events,
        1 ≤ r.count)
  ∧ (m ≤ 1 →
      aggregate (mkActionAggregator pp ex al ap ar m) events
          = aggregate (mkActionAggregator pp ex al ap ar 1) events
    ∧ aggregate (mkActionAggregator pp ex al ap ar m) events
          = sortRecords
              ((foldStates (mkActionAggregator pp ex al ap ar m) events).filter
                (fun r => !(is_allowlisted (mkActionAggregator pp ex al ap ar m)
                    r.action r.principal_arn r.resources)))) := by
  refine ⟨rfl, ?_, ?_⟩
  · intro r hr
    exact foldStates_count_pos _ events [] (by intro r' h; cases h) r hr
  · intro hm
    have hcfg : mkActionAggregator pp ex al ap ar m
        = mkActionAggregator pp ex al ap ar 1 := by
      unfold mkActionAggregator
      have : max m 1 = max 1 1 := by omega
      rw [this]
    constructor
    · rw [hcfg]
    · unfold aggregate
      congr 1
      apply List.filter_congr
      intro r hr
      have hc : 1 ≤ r.count :=
        foldStates_count_pos _ events [] (by intro r' h; cases h) r hr
      unfold keeps
      have hmin : (mkActionAggregator pp ex al ap ar m).min_count = 1 := by
        show max m 1 = 1
        omega
      rw [hmin]
      have hdec : decide ((1 : Int) ≤ (r.count : Int)) = true := by
        simp
        exact_mod_cast hc
      rw [hdec, Bool.true_and]

/-- C10 witness: the theorem applied with `minCount = 0` on a concrete
event list. -/
theorem c10_min_count_witness :
    (mkActionAggregator none [] [] [] [] 0).min_count = 1
  ∧ aggregate (mkActionAggregator none [] [] [] [] 0) [c2ev]
      = aggregate (mkActionAggregator none [] [] [] [] 1) [c2ev]
  ∧ 1 ≤ c2out.count := by
  refine ⟨?_, ((c10_min_count none [] [] [] [] 0 [c2ev]).2.2 (by omega)).1,
    (c10_min_count none [] [] [] [] 0 [c2ev]).2.1 c2out (by decide)⟩
  have h := (c10_min_count none [] [] [] [] 0 [c2ev]).1
  rw [h]
  omega

/-! ## Claim C5: build determinism under record permutation -/

theorem perm_any {α : Type} {l l' : List α} (h : l.Perm l') (p : α → Bool) :
    l.any p = l'.any p := by
  cases hl : l.any p with
  | true =>
    rw [List.any_eq_true] at hl
    rcases hl with ⟨x, hx, hp⟩
    exact (List.any_eq_true.mpr ⟨x, h.mem_iff.mp hx, hp⟩).symm
  | false =>
    cases hl' : l'.any p with
    | false => rfl
    | true =>
      rw [List.any_eq_true] at hl'
      rcases hl' with ⟨x, hx, hp⟩
      have : l.any p = true := List.any_eq_true.mpr ⟨x, h.mem_iff.mpr hx, hp⟩
      rw [hl] at this
      cases this

theorem sortStr_eq_of_same_members {l1 l2 : List String}
    (h1 : l1.Nodup) (h2 : l2.Nodup) (hmem : ∀ x, x ∈ l1 ↔ x ∈ l2) :
    sortStr l1 = sortStr l2 := by
  have hperm : l1.Perm l2 := (List.perm_ext_iff_of_nodup h1 h2).mpr hmem
  exact List.eq_of_perm_of_sorted
    (((List.perm_insertionSort strLE l1).trans hperm).trans
      (List.perm_insertionSort strLE l2).symm)
    (List.sorted_insertionSort strLE l1)
    (List.sorted_insertionSort strLE l2)

/-- Strict-or-equal group order used to identify the two sorted group
lists. -/
def groupLTE (p q : GKey × List String) : Prop :=
  gkeyCmp p.1 q.1 = Ordering.lt ∨ p = q

instance : IsTrans (GKey × List String) groupLTE := by
  constructor
  intro a b c hab hbc
  rcases hab with hab | rfl
  · rcases hbc with hbc | rfl
    · exact Or.inl (gkeyCmp_lawful.2.2 _ _ _ hab hbc)
    · exact Or.inl hab
  · exact hbc

instance : IsAntisymm (GKey × List String) groupLTE := by
  constructor
  intro a b hab hba
  rcases hab with hab | rfl
  · rcases hba with hba | rfl
    · exfalso
      have := (gkeyCmp_lawful.2.1 a.1 b.1).mpr hba
      rw [hab] at this
      cases this
    · rfl
  · rfl

/-- Canonicalize a group pair by sorting its action set. -/
def canonPair (p : GKey × List String) : GKey × List String :=
  (p.1, sortStr p.2)

theorem assignSids_canon (groups : List (GKey × List String)) :
    assignSids (groups.map canonPair) = assignSids groups := by
  unfold assignSids
  rw [List.foldl_map]
  have hstep : (fun (acc : List (String × Nat) × List PolicyStatement) p =>
      (let bc := bumpCounter acc.1 (canonPair p).1.1
       (bc.2, acc.2 ++ [mkStatement (canonPair p).1 (canonPair p).2 bc.1])))
      = (fun acc p =>
      (let bc := bumpCounter acc.1 p.1.1
       (bc.2, acc.2 ++ [mkStatement p.1 p.2 bc.1]))) := by
    funext acc p
    simp only [canonPair]
    have hs : mkStatement p.1 (sortStr p.2) = mkStatement p.1 p.2 := by
      funext c
      unfold mkStatement
      have hidem : sortStr (sortStr p.2) = sortStr p.2 :=
        List.Sorted.insertionSort_eq (List.sorted_insertionSort strLE p.2)
      rw [show sortStr (sortStr p.2) = sortStr p.2 from hidem]
    rw [hs]
  rw [hstep]

theorem fst_addAction (p : GKey × List String) (r : ActionRecord) :
    (addAction p r).1 = p.1 := rfl

theorem foldl_addAction (occ : List ActionRecord) (k : GKey)
    (as : List String) :
    occ.foldl addAction (k, as)
      = (k, insertUniqueAll as (occ.map (fun r => r.action))) := by
  rw [insertUniqueAll, List.foldl_map]
  induction occ generalizing as with
  | nil => rfl
  | cons r occ ih =>
    rw [List.foldl_cons, List.foldl_cons]
    exact ih _

theorem groupRecords_nodup_keys (g : PolicyGenerator)
    (rs : List ActionRecord) :
    ((groupRecords g rs).map Prod.fst).Nodup := by
  unfold groupRecords
  have Hupd : ∀ (p : GKey × List String) (r : ActionRecord),
      (addAction p r).1 = p.1 := fun _ _ => rfl
  have Hmk : ∀ k : GKey, ((k, ([] : List String)) : GKey × List String).1 = k :=
    fun _ => rfl
  exact nodup_keys_assocFold Hupd Hmk rs [] (by simp)

theorem groupRecords_afind (g : PolicyGenerator) (rs : List ActionRecord)
    (k : GKey) :
    afind Prod.fst (groupRecords g rs) k
      = match rs.filter (fun r => decide (gkey g r = k)) with
        | [] => none
        | r0 :: rest =>
          some (k, insertUniqueAll []
            (((r0 :: rest)).map (fun r => r.action))) := by
  unfold groupRecords
  have Hupd : ∀ (p : GKey × List String) (r : ActionRecord),
      (addAction p r).1 = p.1 := fun _ _ => rfl
  have Hmk : ∀ k : GKey, ((k, ([] : List String)) : GKey × List String).1 = k :=
    fun _ => rfl
  rw [afind_assocFold Hupd Hmk]
  have hnone : afind Prod.fst ([] : List (GKey × List String)) k = none := rfl
  rw [hnone]
  cases hf : rs.filter (fun r => decide (gkey g r = k)) with
  | nil => rfl
  | cons r0 rest =>
    show some (rest.foldl addAction (addAction (k, []) r0)) = _
    rw [show addAction (k, []) r0 = (k, [r0.action]) from rfl]
    rw [foldl_addAction]
    rfl

theorem mem_groupRecords_iff (g : PolicyGenerator) (rs : List ActionRecord)
    (p : GKey × List String) :
    p ∈ groupRecords g rs
      ↔ rs.filter (fun r => decide (gkey g r = p.1)) ≠ []
        ∧ p.2 = insertUniqueAll []
            ((rs.filter (fun r => decide (gkey g r = p.1))).map
              (fun r => r.action)) := by
  constructor
  · intro hp
    have hfind : afind Prod.fst (groupRecords g rs) p.1 = some p :=
      afind_of_mem_nodup (groupRecords_nodup_keys g rs) hp
    rw [groupRecords_afind] at hfind
    cases hf : rs.filter (fun r => decide (gkey g r = p.1)) with
    | nil =>
      rw [hf] at hfind
      replace hfind : (none : Option (GKey × List String)) = some p := hfind
      cases hfind
    | cons r0 rest =>
      rw [hf] at hfind
      replace hfind
          : some ((p.1, insertUniqueAll [] ((r0 :: rest).map (fun r => r.action))))
              = some p := hfind
      injection hfind with hfind
      refine ⟨by simp, ?_⟩
      rw [← hfind]
  · rintro ⟨hne, hval⟩
    have hsome : (afind Prod.fst (groupRecords g rs) p.1).isSome := by
      rw [groupRecords_afind]
      cases hf : rs.filter (fun r => decide (gkey g r = p.1)) with
      | nil => exact absurd hf hne
      | cons r0 rest => rfl
    rw [Option.isSome_iff_exists] at hsome
    rcases hsome with ⟨q, hq⟩
    have hqmem := afind_eq_some_mem hq
    have hqval := hq
    rw [groupRecords_afind] at hqval
    cases hf : rs.filter (fun r => decide (gkey g r = p.1)) with
    | nil => exact absurd hf hne
    | cons r0 rest =>
      rw [hf] at hqval
      replace hqval
          : some ((p.1, insertUniqueAll [] ((r0 :: rest).map (fun r => r.action))))
              = some q := hqval
      injection hqval with hqval
      have hq2 : q = (p.1, insertUniqueAll []
          ((r0 :: rest).map (fun r => r.action))) := hqval.symm
      have hp2 : p = (p.1, insertUniqueAll []
          ((r0 :: rest).map (fun r => r.action))) := by
        cases p with
        | mk p1 p2 =>
          simp only [Prod.mk.injEq, true_and]
          simpa [hf] using hval
      rw [hp2, ← hq2]
      exact hqmem.1

/-- The sorted group list with canonically sorted action sets: the image
of `sorted(grouped.items())` under action-set sorting. -/
def canonGroups (g : PolicyGenerator) (rs : List ActionRecord) :
    List (GKey × List String) :=
  (sortGroups (groupRecords g rs)).map canonPair

theorem mem_canonGroups_iff (g : PolicyGenerator) (rs : List ActionRecord)
    (p : GKey × List String) :
    p ∈ canonGroups g rs
      ↔ rs.filter (fun r => decide (gkey g r = p.1)) ≠ []
        ∧ p.2 = sortStr (insertUniqueAll []
            ((rs.filter (fun r => decide (gkey g r = p.1))).map
              (fun r => r.action))) := by
  unfold canonGroups sortGroups
  constructor
  · intro hp
    rcases List.mem_map.mp hp with ⟨q, hq, hqp⟩
    rw [(List.perm_insertionSort groupLE _).mem_iff] at hq
    rcases (mem_groupRecords_iff g rs q).mp hq with ⟨hne, hval⟩
    subst hqp
    constructor
    · rw [show (canonPair q).1 = q.1 from rfl]
      exact hne
    · show sortStr q.2 = _
      rw [hval]
      rfl
  · rintro ⟨hne, hval⟩
    refine List.mem_map.mpr
      ⟨(p.1, insertUniqueAll []
          ((rs.filter (fun r => decide (gkey g r = p.1))).map
            (fun r => r.action))), ?_, ?_⟩
    · rw [(List.perm_insertionSort groupLE _).mem_iff]
      exact (mem_groupRecords_iff g rs _).mpr ⟨hne, rfl⟩
    · unfold canonPair
      cases p with
      | mk p1 p2 =>
        simp only [Prod.mk.injEq, true_and]
        exact hval.symm

theorem canonGroups_strict (g : PolicyGenerator) (rs : List ActionRecord) :
    (canonGroups g rs).Pairwise
      (fun a b => gkeyCmp a.1 b.1 = Ordering.lt) := by
  have hsorted : (sortGroups (groupRecords g rs)).Pairwise groupLE :=
    List.sorted_insertionSort groupLE _
  have hnodup_keys : ((sortGroups (groupRecords g rs)).map Prod.fst).Nodup := by
    have hperm : List.Perm (sortGroups (groupRecords g rs))
        (groupRecords g rs) := List.perm_insertionSort groupLE _
    exact (hperm.map Prod.fst).nodup_iff.mpr (groupRecords_nodup_keys g rs)
  have hne : (sortGroups (groupRecords g rs)).Pairwise
      (fun a b => a.1 ≠ b.1) := List.pairwise_map.mp hnodup_keys
  have hstrict : (sortGroups (groupRecords g rs)).Pairwise
      (fun a b => gkeyCmp a.1 b.1 = Ordering.lt) :=
    (hsorted.and hne).imp
      (fun h => lt_of_leOfCmp_of_ne gkeyCmp_lawful h.1 h.2)
  unfold canonGroups
  rw [List.pairwise_map]
  exact hstrict

theorem canonGroups_nodup (g : PolicyGenerator) (rs : List ActionRecord) :
    (canonGroups g rs).Nodup := by
  refine (canonGroups_strict g rs).imp ?_
  intro a b hlt heq
  rw [heq, cmp_refl gkeyCmp_lawful] at hlt
  cases hlt

theorem canonGroups_perm_eq (g : PolicyGenerator)
    {rs rs' : List ActionRecord} (hperm : rs.Perm rs') :
    canonGroups g rs = canonGroups g rs' := by
  have hmem : ∀ p, p ∈ canonGroups g rs ↔ p ∈ canonGroups g rs' := by
    intro p
    rw [mem_canonGroups_iff, mem_canonGroups_iff]
    have hop : List.Perm (rs.filter (fun r => decide (gkey g r = p.1)))
        (rs'.filter (fun r => decide (gkey g r = p.1))) := hperm.filter _
    have hval_eq :
        sortStr (insertUniqueAll []
            ((rs.filter (fun r => decide (gkey g r = p.1))).map
              (fun r => r.action)))
          = sortStr (insertUniqueAll []
            ((rs'.filter (fun r => decide (gkey g r = p.1))).map
              (fun r => r.action))) := by
      apply sortStr_eq_of_same_members
      · exact insertUniqueAll_nodup [] _ List.nodup_nil
      · exact insertUniqueAll_nodup [] _ List.nodup_nil
      · intro x
        rw [insertUniqueAll_mem, insertUniqueAll_mem]
        simp only [List.not_mem_nil, false_or]
        exact (hop.map (fun r => r.action)).mem_iff
    constructor
    · rintro ⟨hne, hval⟩
      refine ⟨fun hc => hne (List.Perm.eq_nil (hc ▸ hop)), ?_⟩
      rw [hval, hval_eq]
    · rintro ⟨hne, hval⟩
      refine ⟨fun hc => hne (List.Perm.eq_nil (hc ▸ hop.symm)), ?_⟩
      rw [hval, hval_eq]
  exact List.eq_of_perm_of_sorted (r := groupLTE)
    ((List.perm_ext_iff_of_nodup (canonGroups_nodup g rs)
        (canonGroups_nodup g rs')).mpr hmem)
    ((canonGroups_strict g rs).imp (fun h => Or.inl h))
    ((canonGroups_strict g rs').imp (fun h => Or.inl h))

theorem compose_statements_perm (g : PolicyGenerator)
    {rs rs' : List ActionRecord} (h : rs.Perm rs') :
    compose_statements g rs = compose_statements g rs' := by
  unfold compose_statements
  rw [← assignSids_canon (sortGroups (groupRecords g rs)),
    ← assignSids_canon (sortGroups (groupRecords g rs'))]
  show assignSids (canonGroups g rs) = assignSids (canonGroups g rs')
  rw [canonGroups_perm_eq g h]

/-- C5: `build` is a pure deterministic function of its inputs; permuting
the usage-record list leaves the primary document and the overflow
documents — statement contents, ordering and ids included — unchanged. -/
theorem c5_build_deterministic (g : PolicyGenerator)
    (rs rs' : List ActionRecord) (h : rs.Perm rs') :
    build g rs = build g rs' := by
  unfold build
  have hempty : rs.isEmpty = rs'.isEmpty := by
    by_cases hr : rs = []
    · subst hr
      rw [h.symm.eq_nil]
    · have hr' : rs' ≠ [] := fun hc => hr (List.Perm.eq_nil (hc ▸ h))
      have h1 : rs.isEmpty = false := by
        cases hc : rs.isEmpty with
        | false => rfl
        | true => exact absurd (List.isEmpty_iff.mp hc) hr
      have h2 : rs'.isEmpty = false := by
        cases hc : rs'.isEmpty with
        | false => rfl
        | true => exact absurd (List.isEmpty_iff.mp hc) hr'
      rw [h1, h2]
  rw [hempty]
  by_cases he : rs'.isEmpty = true
  · rw [if_pos he, if_pos he]
  · rw [if_neg he, if_neg he]
    have hbs : buildStatements g rs = buildStatements g rs' := by
      unfold buildStatements
      rw [compose_statements_perm g h,
        perm_any h (fun r => r.service == "lambda")]
    rw [hbs]

/-- Generator used for the C5 witness. -/
def c5gen : PolicyGenerator :=
  { arn_rules := c1reg
    resource_levels := defaultResourceLevelIndex
    mode := "actions"
    max_statements := some 1 }

/-- First C5 sample record. -/
def c5r1 : ActionRecord :=
  { principal_arn := "p", service := "s3", action := "s3:GetObject",
    count := 2, resources := ["arn:aws:s3:::a/*"],
    conditions := [[("aws:SourceIp", CondVal.ls ["10.0.0.0/8"])]] }

/-- Second C5 sample record. -/
def c5r2 : ActionRecord :=
  { principal_arn := "p", service := "lambda", action := "lambda:InvokeFunction",
    count := 1, resources := [] }

/-- C5 witness: determinism applied to a concrete swap of two records. -/
theorem c5_build_deterministic_witness :
    build c5gen [c5r1, c5r2] = build c5gen [c5r2, c5r1] :=
  c5_build_deterministic c5gen [c5r1, c5r2] [c5r2, c5r1] (by decide)
